import Mathlib

/-!
Verification of CV-Foundry's text-sanitization pipeline, fallback
orchestrator, document model and ATS linter.

The definitions below are a shallow embedding of the JavaScript source:
`webapp/js/main.js` (sanitizers, rewrite fallback chain, country pack
resolution), `webapp/js/lib/ats.js` (linter), and `webapp/js/lib/skills.js`
(skill tokenization and grouping).  Strings are modelled as `String` /
`List Char`; JavaScript regular expressions are modelled by explicit
character scanners.  JS `\s` is modelled by the ASCII whitespace class,
`\w` by ASCII alphanumerics plus underscore, and `toLowerCase` by ASCII
plus Latin-1 letter lowering, which covers every character the source's
patterns and phrase lists use.
-/

namespace CVF

/-- JS `\s` whitespace class (ASCII part). -/
def isWsChar (c : Char) : Bool :=
  c = ' ' || c = '\t' || c = '\n' || c = '\r' || c.val = 11 || c.val = 12

/-- JS `\w` word-character class: `[A-Za-z0-9_]`. -/
def isWordCh (c : Char) : Bool :=
  (('a' ≤ c && c ≤ 'z') || ('A' ≤ c && c ≤ 'Z') || ('0' ≤ c && c ≤ '9') || c = '_')

/-- JS `toLowerCase` restricted to ASCII and Latin-1 letters (covers the
accented characters in the source's phrase lists, e.g. `É` → `é`). -/
def lowerCh (c : Char) : Char :=
  if 'A' ≤ c && c ≤ 'Z' then Char.ofNat (c.toNat + 32)
  else if 0xC0 ≤ c.toNat && c.toNat ≤ 0xDE && c.toNat ≠ 0xD7 then Char.ofNat (c.toNat + 32)
  else c

def lowerL (l : List Char) : List Char := l.map lowerCh

/-- Lowercase a string (model of JS `toLowerCase`). -/
def strLower (s : String) : String := String.mk (lowerL s.data)

/-- One pass of JS `replace(/\s+/g, ' ')`: collapse every whitespace run to a
single space.  The flag records whether the previous character was
whitespace. -/
def collapseAux : Bool → List Char → List Char
  | _, [] => []
  | prevWs, c :: cs =>
    if isWsChar c then
      (if prevWs then collapseAux true cs else ' ' :: collapseAux true cs)
    else c :: collapseAux false cs

/-- Drop trailing whitespace (structural formulation). -/
def dropTrailWs : List Char → List Char
  | [] => []
  | c :: cs =>
    match dropTrailWs cs with
    | [] => if isWsChar c then [] else [c]
    | r => c :: r

/-- JS `trim()`. -/
def trimChars (l : List Char) : List Char := dropTrailWs (l.dropWhile isWsChar)

def strTrim (s : String) : String := String.mk (trimChars s.data)

/-- `sanitizeOneLine` from main.js: replace newline runs by spaces, collapse
all whitespace runs to single spaces, trim.  The first `replace` (newlines to
spaces) is subsumed by the general whitespace collapse, so the net effect is
collapse-then-trim. -/
def sanitizeOneLine (s : String) : String :=
  String.mk (trimChars (collapseAux false s.data))

/-- A collapsed list: every whitespace character is a single `' '` and no two
whitespace characters are adjacent.  The flag records whether the previous
character was whitespace. -/
def wsNormd : Bool → List Char → Bool
  | _, [] => true
  | prevWs, c :: cs =>
    if isWsChar c then ((c = ' ') && !prevWs) && wsNormd true cs
    else wsNormd false cs

/-- Number of maximal non-whitespace runs.  The flag records whether the
previous character was inside a token. -/
def ctAux : Bool → List Char → Nat
  | _, [] => 0
  | inTok, c :: cs =>
    if isWsChar c then ctAux false cs
    else (if inTok then 0 else 1) + ctAux true cs

/-- Whitespace-delimited word count of a list of characters. -/
def countTokens (l : List Char) : Nat := ctAux false l

/-- Word count of a string. -/
def countTokensStr (s : String) : Nat := countTokens s.data

/-- Token-state after scanning a list. -/
def stAfter : Bool → List Char → Bool
  | b, [] => b
  | _, c :: cs => stAfter (!isWsChar c) cs

/-- Split on every occurrence of a single space character. -/
def splitEverySp : List Char → List (List Char)
  | [] => [[]]
  | c :: cs =>
    if c = ' ' then [] :: splitEverySp cs
    else
      match splitEverySp cs with
      | [] => [[c]]
      | h :: t => (c :: h) :: t

/-- JS `s.split(' ').filter(Boolean)`. -/
def splitSpFilter (l : List Char) : List (List Char) :=
  (splitEverySp l).filter (fun p => !p.isEmpty)

/-- JS `parts.join(' ')`. -/
def joinSp : List (List Char) → List Char
  | [] => []
  | [p] => p
  | p :: ps => p ++ ' ' :: joinSp ps

/-- Every whitespace character in the list is a plain space. -/
def allWsSp (l : List Char) : Bool := l.all (fun c => !isWsChar c || c = ' ')

/-- Backtick character (the code-fence marker). -/
def tick : Char := Char.ofNat 96

/-- Apostrophe character. -/
def apos : Char := Char.ofNat 39

/-- Match a lowercase pattern case-insensitively at the head; return the rest. -/
def eatCI : List Char → List Char → Option (List Char)
  | [], l => some l
  | _ :: _, [] => none
  | p :: ps, c :: cs => if lowerCh c = p then eatCI ps cs else none

/-- Match a literal pattern at the head; return the rest. -/
def eatLit : List Char → List Char → Option (List Char)
  | [], l => some l
  | _ :: _, [] => none
  | p :: ps, c :: cs => if c = p then eatLit ps cs else none

/-- Consume leading whitespace, returning its length and the rest. -/
def eatWs : List Char → Nat × List Char
  | [] => (0, [])
  | c :: cs =>
    if isWsChar c then
      let r := eatWs cs
      (r.1 + 1, r.2)
    else (0, c :: cs)

/-- JS `replace(pat, '')` with the `gi` flags for a literal phrase: delete
every case-insensitive occurrence.  The `Nat` argument counts characters of a
current match still to be skipped. -/
def raAux (pat : List Char) : List Char → Nat → List Char
  | [], _ => []
  | _ :: cs, k + 1 => raAux pat cs k
  | c :: cs, 0 =>
    match eatCI pat (c :: cs) with
    | some _ => raAux pat cs (pat.length - 1)
    | none => c :: raAux pat cs 0

def replaceAllCI (pat : String) (l : List Char) : List Char :=
  raAux (lowerL pat.data) l 0

/-- `CODE_FENCE_RE`: strip a leading and a trailing run of three or more
backticks. -/
def stripFences (l : List Char) : List Char :=
  let l1 := if (l.takeWhile (fun c => c = tick)).length ≥ 3
            then l.dropWhile (fun c => c = tick) else l
  let rev := l1.reverse
  if (rev.takeWhile (fun c => c = tick)).length ≥ 3
  then (rev.dropWhile (fun c => c = tick)).reverse else l1

/-- Consume up to and including the first colon (regex `[^:]*:`); returns the
number of characters consumed. -/
def upToColon : List Char → Option (Nat × List Char)
  | [] => none
  | c :: cs =>
    if c = ':' then some (1, cs)
    else (upToColon cs).map (fun r => (r.1 + 1, r.2))

/-- The `(?:original|corrected)` keyword, case-insensitive. -/
def labelKeyword (l : List Char) : Option (List Char) :=
  match eatCI "original".data l with
  | some rest => some rest
  | none => eatCI "corrected".data l

/-- stripMeta's `^\s*\*\*(?:original|corrected)[^:]*:\*\*\s*` removal. -/
def starLabelStrip (l : List Char) : List Char :=
  match eatLit ['*', '*'] (eatWs l).2 with
  | none => l
  | some r2 =>
    match labelKeyword r2 with
    | none => l
    | some r3 =>
      match upToColon r3 with
      | none => l
      | some (_, r4) =>
        match eatLit ['*', '*'] r4 with
        | none => l
        | some r5 => (eatWs r5).2

/-- stripMeta's `^\s*(?:original|corrected)[^:]*:\s*` removal. -/
def plainLabelStrip (l : List Char) : List Char :=
  match labelKeyword (eatWs l).2 with
  | none => l
  | some r2 =>
    match upToColon r2 with
    | none => l
    | some (_, r3) => (eatWs r3).2

/-- `BAD_PHRASES` from main.js. -/
def BAD_PHRASES : List String :=
  ["Original Résumé Text", "Corrected Résumé Text",
   "Here is the corrected text", "I am an AI", "as an AI"]

/-- `stripMeta` from main.js: drop code fences, the two label-prefix
patterns, every bad phrase (case-insensitive, global), then trim. -/
def stripMeta (s : String) : String :=
  let l1 := stripFences s.data
  let l2 := starLabelStrip l1
  let l3 := plainLabelStrip l2
  let l4 := BAD_PHRASES.foldl (fun acc p => replaceAllCI p acc) l3
  String.mk (trimChars l4)

/-- The bullet-marker characters of `BULLET_MARK_RE`: hyphen, en dash, em
dash, bullet. -/
def bulletMarks : List Char := ['-', Char.ofNat 0x2013, Char.ofNat 0x2014, Char.ofNat 0x2022]

/-- `replace(BULLET_MARK_RE, '')`: remove one leading `\s*[-–—•]\s*`. -/
def bulletMarkStrip (l : List Char) : List Char :=
  match l.dropWhile isWsChar with
  | c :: cs => if bulletMarks.contains c then cs.dropWhile isWsChar else l
  | [] => l

/-- `META_LINE_RE` alternatives, expanded from the optional groups in the
regex's backtracking order (each alternative is a lowercase literal). -/
def metaAlternatives : List (List Char) :=
  ([[apos, 's'], ['s'], ([] : List Char)].flatMap fun so =>
    (["the ", ""].flatMap fun th =>
      (["corrected", "correct", "fixed"].map fun v =>
        "here".data ++ so ++ [' '] ++ th.data ++ v.data ++ " text".data)))
  ++ ["original résumé text".data, "original resume text".data,
      "corrected résumé text".data, "corrected resume text".data,
      "as an ai".data, "note:".data]

/-- Length of a `META_LINE_RE` match at the start of the list, if any. -/
def metaLineLen (l : List Char) : Option Nat :=
  let ws := eatWs l
  metaAlternatives.findSome? fun pat =>
    (eatCI pat ws.2).map (fun _ => ws.1 + pat.length)

/-- `if (META_LINE_RE.test(out)) out = out.replace(META_LINE_RE, '').trim()`. -/
def metaStrip (l : List Char) : List Char :=
  match metaLineLen l with
  | some n => trimChars (List.drop n l)
  | none => l

/-- Next char is a word boundary (end or a non-word character). -/
def wordBoundary : List Char → Bool
  | [] => true
  | c :: _ => !isWordCh c

def matchNotAt (l : List Char) : Bool :=
  match eatCI "not".data l with
  | some r => wordBoundary r
  | none => false

/-- Distance to the first `,` or `.` (inclusive), not crossing a newline:
the `.*?(,|\.)` part of the hedging-clause regex. -/
def searchDelim : List Char → Option Nat
  | [] => none
  | c :: cs =>
    if c = ',' || c = '.' then some 1
    else if c = '\n' then none
    else (searchDelim cs).map (· + 1)

/-- `replace(/\bnot\b.*?(,|\.)/i, '')`: remove the first hedging clause. -/
def notClauseAux : List Char → Bool → List Char
  | [], _ => []
  | c :: cs, prevW =>
    if !prevW && matchNotAt (c :: cs) then
      match searchDelim (List.drop 2 cs) with
      | some m => List.drop (2 + m) cs
      | none => c :: notClauseAux cs (isWordCh c)
    else c :: notClauseAux cs (isWordCh c)

/-- Trailing-punctuation characters `[.;:,-]`. -/
def endPuncts : List Char := ['.', ';', ':', ',', '-']

/-- `replace(/\s*[.;:,-]\s*$/, '').trim()` (and the role/title variant
without the leading `\s*`, whose net effect after `trim` is the same):
drop trailing whitespace, then one trailing punctuation character, then
trim. -/
def dropTrailPunctTrim (l : List Char) : List Char :=
  match (dropTrailWs l).reverse with
  | c :: cs => if endPuncts.contains c then trimChars cs.reverse else trimChars l
  | [] => trimChars l

/-- Quote characters of `/^[`"'“”]+|[`"'“”]+$/g`. -/
def quoteChars : List Char :=
  [tick, Char.ofNat 34, apos, Char.ofNat 8220, Char.ofNat 8221]

def isQuoteCh (c : Char) : Bool := quoteChars.contains c

/-- Strip leading and trailing quote-character runs. -/
def dropQuoteEnds (l : List Char) : List Char :=
  ((l.dropWhile isQuoteCh).reverse.dropWhile isQuoteCh).reverse

/-- `MAX_BULLET_WORDS` from main.js. -/
def MAX_BULLET_WORDS : Nat := 22

/-- `sanitizeBulletLine` steps 2-5: bullet-marker strip, whitespace collapse
and trim, `META_LINE_RE` removal, hedging-clause removal. -/
def sblPreCap (l1 : List Char) : List Char :=
  trimChars (notClauseAux (metaStrip (trimChars (collapseAux false (bulletMarkStrip l1)))) false)

/-- `sanitizeBulletLine` word cap: split on spaces, keep the first 22
words. -/
def sblCap (l5 : List Char) : List Char :=
  let words := splitSpFilter l5
  if words.length > MAX_BULLET_WORDS then joinSp (words.take MAX_BULLET_WORDS) else l5

/-- `sanitizeBulletLine` from main.js (after `stripMeta`). -/
def sblCore (l1 : List Char) : List Char :=
  dropQuoteEnds (dropTrailPunctTrim (sblCap (sblPreCap l1)))

/-- `sanitizeBulletLine` from main.js. -/
def sanitizeBulletLine (s : String) : String :=
  String.mk (sblCore (stripMeta s).data)

/-- `s.toLowerCase().includes(p.toLowerCase())`: case-insensitive substring
test (both sides lowercased by the caller). -/
def isPrefixL : List Char → List Char → Bool
  | [], _ => true
  | _ :: _, [] => false
  | p :: ps, c :: cs => c = p && isPrefixL ps cs

def hasSub (pat : List Char) : List Char → Bool
  | [] => pat.isEmpty
  | c :: cs => isPrefixL pat (c :: cs) || hasSub pat cs

def containsBadPhrase (s : String) : Bool :=
  BAD_PHRASES.any fun p => hasSub (lowerL p.data) (lowerL s.data)

/-- The loop body of `sanitizeBulletList`: sanitize, drop empties and
bad-phrase lines, deduplicate case-insensitively (first occurrence wins). -/
def sblAux : List String → List String → List String
  | [], _ => []
  | l :: ls, seen =>
    let s := sanitizeBulletLine l
    if s = "" then sblAux ls seen
    else if containsBadPhrase s then sblAux ls seen
    else if seen.contains (strLower s) then sblAux ls seen
    else s :: sblAux ls (strLower s :: seen)

/-- `sanitizeBulletList` from main.js. -/
def sanitizeBulletList (lines : List String) : List String := sblAux lines []

/-- Split on every newline character (JS `split('\n')`). -/
def splitNlCh : List Char → List (List Char)
  | [] => [[]]
  | c :: cs =>
    if c = '\n' then [] :: splitNlCh cs
    else
      match splitNlCh cs with
      | [] => [[c]]
      | h :: t => (c :: h) :: t

/-- The bullets-textarea input handler in `addExperience`:
`inp.value.split('\n').map(s => s.trim()).filter(Boolean)`. -/
def bulletsFromTextarea (v : String) : List String :=
  (((splitNlCh v.data).map (fun p => String.mk (trimChars p))).filter (fun s => !(s = "")))

/-- `SENTENCE_PUNCT_RE` characters. -/
def isSentencePunct (c : Char) : Bool :=
  c = '.' || c = '?' || c = '!' || c = ':' || c = ';'

/-- `firstClause` from main.js: the part before the first sentence
punctuation, one-lined. -/
def firstClause (s : String) : String :=
  sanitizeOneLine (String.mk (s.data.takeWhile (fun c => !isSentencePunct c)))

/-- `capWords` from main.js: keep the first `n` space-delimited words. -/
def capWords (s : String) (n : Nat) : String :=
  String.mk (joinSp ((splitSpFilter (sanitizeOneLine s).data).take n))

/-- The verbs of `ACTION_VERB_RE` (all lowercase). -/
def VERBS : List String :=
  ["developed", "implemented", "improved", "collaborated", "built", "designed",
   "contributed", "deployed", "led", "optimized", "analysed", "analyzed",
   "managed", "reduced", "increased", "resolved", "created"]

def verbAtHead (l : List Char) : Bool :=
  VERBS.any fun v =>
    match eatCI v.data l with
    | some rest => wordBoundary rest
    | none => false

/-- Scan for `\b(verb)\b`, case-insensitively; the flag records whether the
previous character was a word character. -/
def actionVerbScan : List Char → Bool → Bool
  | [], _ => false
  | c :: cs, prevW => ((!prevW) && verbAtHead (c :: cs)) || actionVerbScan cs (isWordCh c)

/-- `ACTION_VERB_RE.test`. -/
def actionVerbTest (s : String) : Bool := actionVerbScan s.data false

/-- A letter for the purpose of the field character filter (the negated
class of letters, digits, the punctuation allowlist and whitespace),
modelled for ASCII and Latin-1. -/
def isLetterLike (c : Char) : Bool :=
  ('a' ≤ c && c ≤ 'z') || ('A' ≤ c && c ≤ 'Z')
  || (0xC0 ≤ c.toNat && c.toNat ≤ 0xFF && c.toNat ≠ 0xD7 && c.toNat ≠ 0xF7)

def isDigitCh (c : Char) : Bool := '0' ≤ c && c ≤ '9'

/-- Characters kept by the field character filter: Unicode letters and
digits (modelled for ASCII and Latin-1), `&`, `+`, `-`, `/`, `.`, `,` and
whitespace. -/
def allowedFieldChar (c : Char) : Bool :=
  isLetterLike c || isDigitCh c || c = '&' || c = '+' || c = '-' || c = '/'
  || c = '.' || c = ',' || isWsChar c

def charFilterField (l : List Char) : List Char := l.filter allowedFieldChar

def MAX_ROLE_WORDS : Nat := 10

def MAX_TITLE_WORDS : Nat := 12

/-- The candidate a role is sanitized from: one-line, bullet-marker strip,
first clause (`out` just before the action-verb test in
`sanitizeRoleText`). -/
def roleCandidate (next : String) : String :=
  firstClause (String.mk (bulletMarkStrip (sanitizeOneLine next).data))

/-- `firstClause(prev).replace(BULLET_MARK_RE, '')` from `sanitizeRoleText`. -/
def cleanedPrevRole (prev : String) : String :=
  String.mk (bulletMarkStrip (firstClause prev).data)

/-- `sanitizeRoleText` from main.js. -/
def sanitizeRoleText (next : String) (prev : String) : String :=
  let out := roleCandidate next
  if actionVerbTest out then
    let cleanedPrev := cleanedPrevRole prev
    sanitizeOneLine (if cleanedPrev = "" then capWords out MAX_ROLE_WORDS else cleanedPrev)
  else
    let out3 := String.mk (dropTrailPunctTrim (capWords out MAX_ROLE_WORDS).data)
    let out4 := String.mk (trimChars (charFilterField out3.data))
    if out4 = "" then prev else out4

/-- `sanitizeTitleText` from main.js: note that on the action-verb signal it
caps the candidate itself at 6 words instead of falling back to the previous
value. -/
def sanitizeTitleText (next : String) (prev : String) : String :=
  let out1 := firstClause (sanitizeOneLine next)
  let out2 := String.mk (dropTrailPunctTrim (capWords out1 MAX_TITLE_WORDS).data)
  let out3 := if actionVerbTest out2 then capWords out2 6 else out2
  let out4 := String.mk (trimChars (charFilterField out3.data))
  if out4 = "" then prev else out4

/-- `split('\n').map(s => s.trim()).filter(Boolean)`, as applied to every
tier's raw text. -/
def splitLines (s : String) : List String :=
  (((splitNlCh s.data).map (fun p => String.mk (trimChars p))).filter (fun t => !(t = "")))

/-- Outcome environment of one rewrite click.  `ensureOk` is whether
`ensureRewriter` resolves; `deviceResult` is the rewriter's text (`none` when
the `rewrite` promise rejects, which the handler's `.catch(() => original)`
turns into the original text); `cloudResult` and `writerResult` are the
remote tiers' texts (`none` when the call throws). -/
structure RewriteEnv where
  ensureOk : Bool
  deviceResult : Option String
  cloudResult : Option String
  writerResult : Option String

/-- One tier's body: `String(improved || original)` split into lines,
sanitized; `none` when the sanitized list is empty (the handler then falls
through without committing). -/
def tierCommit (original : String) (raw : String) : Option (List String) :=
  let text := if raw = "" then original else raw
  let out := sanitizeBulletList (splitLines text)
  if out = [] then none else some out

/-- The rewrite click handler: returns the resulting bullets and whether the
`Rewriter failed` alert fired.  The device tier runs inside `try`; only an
`ensureRewriter` throw reaches the `catch` that starts the cloud tier; a
cloud throw starts the writer tier; a writer throw alerts. -/
def rewriteAction (bullets : List String) (env : RewriteEnv) : List String × Bool :=
  let original := String.intercalate "\n" bullets
  if env.ensureOk then
    match tierCommit original (env.deviceResult.getD original) with
    | some out => (out, false)
    | none => (bullets, false)
  else
    match env.cloudResult with
    | some c =>
      match tierCommit original c with
      | some out => (out, false)
      | none => (bullets, false)
    | none =>
      match env.writerResult with
      | some w =>
        match tierCommit original w with
        | some out => (out, false)
        | none => (bullets, false)
      | none => (bullets, true)

structure Contact where
  email : String
  phone : String
  website : String
  linkedin : String
  github : String
deriving DecidableEq, Repr

structure Profile where
  name : String
  title : String
  location : String
  contact : Contact
  summary : String
deriving DecidableEq, Repr

structure ExperienceEntry where
  company : String
  role : String
  location : String
  start : String
  end_ : String
  bullets : List String
deriving DecidableEq, Repr

structure EducationEntry where
  institution : String
  degree : String
  start : String
  end_ : String
deriving DecidableEq, Repr

structure Certification where
  name : String
  issuer : String
  date : String
  link : String
deriving DecidableEq, Repr

structure Project where
  name : String
  link : String
  bullets : List String
deriving DecidableEq, Repr

structure Publication where
  title : String
  authors : String
  venue : String
  date : String
  doi : String
  link : String
deriving DecidableEq, Repr

structure Patent where
  title : String
  office : String
  number : String
  date : String
  status : String
  link : String
  inventors : String
deriving DecidableEq, Repr

structure CVMeta where
  countryPack : String
  atsStrict : Bool
  locale : String
deriving DecidableEq, Repr

structure CVDoc where
  profile : Profile
  experience : List ExperienceEntry
  education : List EducationEntry
  skills : List String
  certifications : List Certification
  projects : List Project
  publications : List Publication
  patents : List Patent
  meta : CVMeta
deriving DecidableEq, Repr

/-- A resolved country rule pack (shape of `DEFAULT_PACKS` entries). -/
structure CountryPack where
  page_limit : Nat
  photo_allowed : Bool
  date_format : String
  spelling : String
  sections : List String
  notes : List String
deriving DecidableEq, Repr

/-- The rendered-preview facts the linter's DOM checks consume
(`querySelector('table')`, `querySelector('img')`,
`querySelectorAll('*').length`). -/
structure PreviewFacts where
  hasTable : Bool
  hasImg : Bool
  elemCount : Nat
deriving DecidableEq, Repr

/-- `STANDARD_HEADINGS` from lib/ats.js. -/
def STANDARD_HEADINGS : List String :=
  ["Summary", "Experience", "Education", "Skills", "Projects", "Certifications",
   "Profil", "Berufserfahrung", "Ausbildung", "Fähigkeiten", "Expérience",
   "Éducation", "Compétences"]

/-- `textContentFromCV` from lib/ats.js: name, title, summary, experience
company/role/bullets, education institution/degree, skills, joined by single
spaces. -/
def textContentFromCV (cv : CVDoc) : String :=
  String.intercalate " "
    ([cv.profile.name, cv.profile.title, cv.profile.summary]
      ++ (cv.experience.flatMap fun e => [e.company, e.role] ++ e.bullets)
      ++ (cv.education.flatMap fun ed => [ed.institution, ed.degree])
      ++ cv.skills)

/-- `collectHeadings` from lib/ats.js. -/
def collectHeadings (cv : CVDoc) : List String :=
  (if cv.profile.summary ≠ "" then ["Summary"] else [])
    ++ (if cv.experience ≠ [] then ["Experience"] else [])
    ++ (if cv.education ≠ [] then ["Education"] else [])
    ++ (if cv.skills ≠ [] then ["Skills"] else [])
    ++ (if cv.projects ≠ [] then ["Projects"] else [])
    ++ (if cv.certifications ≠ [] then ["Certifications"] else [])

/-- The twelve month abbreviations of the date regex. -/
def MONTH3 : List String :=
  ["Jan", "Feb", "Mar", "Apr", "May", "Jun", "Jul", "Aug", "Sep", "Oct", "Nov", "Dec"]

/-- The date regex matched at the head of a character list:
a month abbreviation, one whitespace character and four digits, or two
digits, a slash and four digits. -/
def dateAtL (l : List Char) : Bool :=
  (match l with
   | a :: b :: c :: s :: d1 :: d2 :: d3 :: d4 :: _ =>
     MONTH3.contains (String.mk [a, b, c]) && isWsChar s
       && (isDigitCh d1 && isDigitCh d2 && isDigitCh d3 && isDigitCh d4)
   | _ => false)
  ||
  (match l with
   | d1 :: d2 :: sl :: y1 :: y2 :: y3 :: y4 :: _ =>
     isDigitCh d1 && isDigitCh d2 && sl = '/'
       && (isDigitCh y1 && isDigitCh y2 && isDigitCh y3 && isDigitCh y4)
   | _ => false)

def hasDateTokenL : List Char → Bool
  | [] => false
  | c :: cs => dateAtL (c :: cs) || hasDateTokenL cs

/-- The text the date regex is run against.  The source matches
`JSON.stringify(cv)`; this serialization keeps every string field's content
(comma-separated), which the date patterns see identically, and omits the
fixed JSON keys and punctuation, which contain no date token. -/
def serializeCV (cv : CVDoc) : String :=
  String.intercalate ","
    ([cv.profile.name, cv.profile.title, cv.profile.location,
      cv.profile.contact.email, cv.profile.contact.phone, cv.profile.contact.website,
      cv.profile.contact.linkedin, cv.profile.contact.github, cv.profile.summary]
      ++ (cv.experience.flatMap fun e =>
            [e.company, e.role, e.location, e.start, e.end_] ++ e.bullets)
      ++ (cv.education.flatMap fun ed => [ed.institution, ed.degree, ed.start, ed.end_])
      ++ cv.skills
      ++ (cv.certifications.flatMap fun c => [c.name, c.issuer, c.date, c.link])
      ++ (cv.projects.flatMap fun p => [p.name, p.link] ++ p.bullets)
      ++ (cv.publications.flatMap fun p => [p.title, p.authors, p.venue, p.date, p.doi, p.link])
      ++ (cv.patents.flatMap fun p =>
            [p.title, p.office, p.number, p.date, p.status, p.link, p.inventors])
      ++ [cv.meta.countryPack, cv.meta.locale])

/-- The linter's warnings; each constructor is one `warnings.push` site of
`lintCV`, carrying the data interpolated into the message. -/
inductive Warning
  | pageLimit (est : Nat) (limit : Nat) (country : String)
  | nonStandardHeading (h : String)
  | noDates
  | tables
  | images
  | complexDom
deriving DecidableEq, Repr

def Warning.isNonStandardHeading : Warning → Bool
  | .nonStandardHeading _ => true
  | _ => false

/-- `wordCount` in `lintCV`: `split(/\s+/).filter(Boolean).length`. -/
def wordCountOf (cv : CVDoc) : Nat := countTokensStr (textContentFromCV cv)

/-- `Math.max(1, Math.round(wordCount / 500))`: for natural `wc`,
`Math.round(wc / 500)` is `⌊(wc + 250) / 500⌋`. -/
def estPages (wc : Nat) : Nat := max 1 ((wc + 250) / 500)

/-- `countryPack.page_limit || 2`: a zero (or absent) limit falls back
to 2. -/
def effPageLimit (pack : CountryPack) : Nat :=
  if pack.page_limit = 0 then 2 else pack.page_limit

/-- `lintCV` from lib/ats.js. -/
def lintCV (cv : CVDoc) (pack : CountryPack) (preview : Option PreviewFacts) : List Warning :=
  let wc := wordCountOf cv
  let est := estPages wc
  (if est > effPageLimit pack then [Warning.pageLimit est pack.page_limit cv.meta.countryPack]
   else [])
  ++ ((collectHeadings cv).filter (fun h => !STANDARD_HEADINGS.contains h)).map
      Warning.nonStandardHeading
  ++ (if hasDateTokenL (serializeCV cv).data then [] else [Warning.noDates])
  ++ (match preview with
      | none => []
      | some p =>
        (if p.hasTable then [Warning.tables] else [])
          ++ (if p.hasImg then [Warning.images] else [])
          ++ (if p.elemCount > 2000 then [Warning.complexDom] else []))

/-- `ORDER` from lib/skills.js: the fixed category enumeration. -/
def ORDER : List String :=
  ["Programming", "Frontend", "Backend", "Data & ML", "Cloud & DevOps",
   "Databases", "Testing", "Tools", "Languages", "Other"]

/-- First-seen-order exact deduplication (JS `[...new Set(xs)]`). -/
def dedupFirstAux : List String → List String → List String
  | [], _ => []
  | s :: ss, seen =>
    if seen.contains s then dedupFirstAux ss seen
    else s :: dedupFirstAux ss (s :: seen)

def dedupFirstStr (l : List String) : List String := dedupFirstAux l []

/-- The skill-list separators `[\n,;]`. -/
def isSkillSep (c : Char) : Bool := c = '\n' || c = ',' || c = ';'

/-- Split on every separator occurrence.  The source splits on separator
runs (`[\n,;]+`); after the `filter(Boolean)` that follows, splitting on
every single separator yields the same list. -/
def splitSkillSeps : List Char → List (List Char)
  | [] => [[]]
  | c :: cs =>
    if isSkillSep c then [] :: splitSkillSeps cs
    else
      match splitSkillSeps cs with
      | [] => [[c]]
      | h :: t => (c :: h) :: t

def countLeadWsL : List Char → Nat
  | [] => 0
  | c :: cs => if isWsChar c then countLeadWsL cs + 1 else 0

/-- Match a sequence of lowercase words separated by `\s+` at the head,
requiring a word boundary after the last word; returns the matched
length. -/
def matchWordsCI : List (List Char) → List Char → Option Nat
  | [], l => if wordBoundary l then some 0 else none
  | [w], l =>
    match eatCI w l with
    | some rest => if wordBoundary rest then some w.length else none
    | none => none
  | w :: w2 :: ws, l =>
    match eatCI w l with
    | some rest =>
      let k := countLeadWsL rest
      if k = 0 then none
      else (matchWordsCI (w2 :: ws) (List.drop k rest)).map (fun n => w.length + k + n)
    | none => none

/-- Global case-insensitive replace of a word-bounded phrase by a canonical
spelling.  The `Nat` argument counts characters of a current match still to
be skipped; the `Bool` records whether the previous character was a word
character. -/
def rwAux (ws : List (List Char)) (canon : List Char) : List Char → Nat → Bool → List Char
  | [], _, _ => []
  | c :: cs, k + 1, _ => rwAux ws canon cs k (isWordCh c)
  | c :: cs, 0, prevW =>
    if prevW then c :: rwAux ws canon cs 0 (isWordCh c)
    else
      match matchWordsCI ws (c :: cs) with
      | some n => canon ++ rwAux ws canon cs (n - 1) (isWordCh c)
      | none => c :: rwAux ws canon cs 0 (isWordCh c)

def replacePhrase (ws : List (List Char)) (canon : List Char) (l : List Char) : List Char :=
  rwAux ws canon l 0 false

/-- The eight multi-word patterns of `tokenizeSkills`, with their canonical
replacements. -/
def PHRASES : List (List String × String) :=
  [(["machine", "learning"], "Machine Learning"),
   (["deep", "learning"], "Deep Learning"),
   (["natural", "language", "processing"], "Natural Language Processing"),
   (["computer", "vision"], "Computer Vision"),
   (["reinforcement", "learning"], "Reinforcement Learning"),
   (["data", "science"], "Data Science"),
   (["artificial", "intelligence"], "Artificial Intelligence"),
   (["cloud", "computing"], "Cloud Computing")]

def applyPhrases (s : String) : String :=
  PHRASES.foldl
    (fun acc pc => String.mk (replacePhrase (pc.1.map (fun w => w.data)) pc.2.data acc.data)) s

/-- `tokenizeSkills` from lib/skills.js. -/
def tokenizeSkills (text : String) : List String :=
  if text = "" then []
  else
    let raw := ((splitSkillSeps text.data).map (fun p => String.mk (trimChars p))).filter
      (fun s => !(s = ""))
    let merged := raw.map applyPhrases
    dedupFirstStr (merged.map strTrim)

/-- The `[...new Set(arr.map(s => String(s).trim()).filter(Boolean))]` step
of `normalizeSkillsAI` in main.js (both the on-device Prompt branch and the
remote writer branch). -/
def dedupTrimmedNonempty (l : List String) : List String :=
  dedupFirstStr ((l.map strTrim).filter (fun s => !(s = "")))

/-- `norm` from lib/skills.js: trim, lowercase, collapse whitespace, map the
exact string `nodejs` to `node.js`. -/
def normSkill (s : String) : String :=
  let c := String.mk (collapseAux false (strLower (strTrim s)).data)
  if c = "nodejs" then "node.js" else c

/-- `PRETTY` from lib/skills.js. -/
def PRETTY : List (String × String) :=
  [("js", "JavaScript"), ("ts", "TypeScript"), ("node", "Node.js"),
   ("node.js", "Node.js"), ("postgres", "PostgreSQL"), ("postgresql", "PostgreSQL"),
   ("gcp", "GCP")]

def upperCh (c : Char) : Char :=
  if 'a' ≤ c && c ≤ 'z' then Char.ofNat (c.toNat - 32) else c

/-- `replace(/\b\w/g, c => c.toUpperCase())`: uppercase each word character
at a word boundary. -/
def capEachWord : List Char → Bool → List Char
  | [], _ => []
  | c :: cs, prevW =>
    (if !prevW && isWordCh c then upperCh c else c) :: capEachWord cs (isWordCh c)

/-- `pretty` from lib/skills.js. -/
def prettySkill (s : String) : String :=
  match PRETTY.find? (fun p => p.1 == normSkill s) with
  | some p => p.2
  | none => String.mk (capEachWord (strTrim s).data false)

/-- `CATS_LOCAL` from lib/skills.js. -/
def CATS_LOCAL : List (String × List String) :=
  [("Programming",
    ["c", "c++", "cpp", "c#", "java", "python", "javascript", "js", "typescript",
     "ts", "go", "golang", "rust", "kotlin", "swift", "ruby", "php", "r", "matlab",
     "scala", "perl", "bash", "shell", "powershell", "solidity"]),
   ("Frontend",
    ["html", "css", "sass", "less", "tailwind", "bootstrap", "react", "next.js",
     "nextjs", "angular", "vue", "nuxt", "svelte"]),
   ("Backend",
    ["node", "node.js", "express", "fastify", "nestjs", "nest", "django", "flask",
     "spring", "spring boot", ".net", ".net core", "asp.net", "rails", "laravel",
     "fastapi"]),
   ("Data & ML",
    ["pandas", "numpy", "scikit-learn", "sklearn", "tensorflow", "pytorch", "keras",
     "xgboost", "lightgbm", "spark", "hadoop", "airflow", "dbt", "sql",
     "machine learning", "ml", "deep learning", "dl", "nlp",
     "natural language processing", "computer vision", "llm",
     "large language models", "transformer", "transformers", "generative ai",
     "genai", "recommender", "recommendation"]),
   ("Cloud & DevOps",
    ["aws", "azure", "gcp", "google cloud", "docker", "kubernetes", "k8s",
     "terraform", "ansible", "jenkins", "github actions", "gitlab ci", "circleci",
     "linux", "nginx", "apache", "grafana", "prometheus"]),
   ("Databases",
    ["postgres", "postgresql", "mysql", "sqlite", "mongodb", "redis",
     "elasticsearch", "dynamodb", "oracle", "snowflake", "redshift", "bigquery",
     "cassandra", "neo4j"]),
   ("Testing",
    ["jest", "mocha", "chai", "cypress", "playwright", "selenium", "junit",
     "pytest", "vitest"]),
   ("Tools",
    ["git", "figma", "jira", "confluence", "notion", "slack", "excel", "word",
     "powerpoint"])]

/-- Scan for any of the word-bounded patterns (used for `\b(sql|nosql)\b`
and the ci/cd pattern). -/
def scanWordPats (pats : List (List Char)) : List Char → Bool → Bool
  | [], _ => false
  | c :: cs, prevW =>
    ((!prevW) && pats.any fun p =>
      match eatCI p (c :: cs) with
      | some r => wordBoundary r
      | none => false) || scanWordPats pats cs (isWordCh c)

/-- `detectLocalCategory` from lib/skills.js. -/
def detectLocalCategory (n : String) : String :=
  match CATS_LOCAL.find? (fun p => p.2.contains n) with
  | some p => p.1
  | none =>
    if scanWordPats ["sql".data, "nosql".data] n.data false then "Databases"
    else if scanWordPats ["ci/cd".data] n.data false then "Cloud & DevOps"
    else "Other"

/-- Code-point comparison standing in for `localeCompare` ordering (the
properties proved below are invariant under the sort order). -/
def lexLe : List Char → List Char → Bool
  | [], _ => true
  | _ :: _, [] => false
  | a :: as, b :: bs =>
    if a.toNat < b.toNat then true
    else if b.toNat < a.toNat then false
    else lexLe as bs

def insertStr (a : String) : List String → List String
  | [] => [a]
  | b :: bs => if lexLe a.data b.data then a :: b :: bs else b :: insertStr a bs

/-- `.sort((a, b) => a.localeCompare(b))` modelled by insertion sort over
code points. -/
def sortStrings : List String → List String
  | [] => []
  | a :: as => insertStr a (sortStrings as)

/-- First raw skill per distinct non-empty normalization (the `seen` set of
`groupSkillsLocal`'s loop). -/
def firstPerNormAux : List String → List String → List String
  | [], _ => []
  | r :: rs, seen =>
    let n := normSkill r
    if n = "" || seen.contains n then firstPerNormAux rs seen
    else r :: firstPerNormAux rs (n :: seen)

/-- `groupSkillsLocal` from lib/skills.js.  The source fills one bucket
array per category in a single pass over the deduplicated raw skills and
then prunes empty buckets in `ORDER` order; this is modelled by filtering
the first-per-norm list per category. -/
def groupSkillsLocal (rawSkills : List String) : List (String × List String) :=
  let entries := firstPerNormAux rawSkills []
  ORDER.filterMap fun cat =>
    let vals := (entries.filter (fun r => detectLocalCategory (normSkill r) == cat)).map
      prettySkill
    if vals.isEmpty then none else some (cat, sortStrings (dedupFirstStr vals))

/-- The output-sanitization step of `groupSkillsAI` (lib/skills.js lines
119-125): keep only `ORDER` categories, drop empty strings, deduplicate
exactly, sort; emit a category only when non-empty. -/
def sanitizeGroupedAI (obj : List (String × List String)) : List (String × List String) :=
  ORDER.filterMap fun cat =>
    let arr := (((obj.find? (fun p => p.1 == cat)).map (fun p => p.2)).getD []).filter
      (fun s => !(s = ""))
    if arr.isEmpty then none else some (cat, sortStrings (dedupFirstStr arr))

/-- `DEFAULT_PACKS` from main.js. -/
def DEFAULT_PACKS : List (String × CountryPack) :=
  [("UK",
    { page_limit := 2, photo_allowed := false, date_format := "MMM YYYY–MMM YYYY",
      spelling := "en-GB",
      sections := ["Summary", "Experience", "Education", "Projects", "Skills",
        "Certifications", "Publications", "Patents"],
      notes := ["Avoid photos to reduce bias risk.", "Single column layout. No tables.",
        "Reverse chronological experience."] }),
   ("US",
    { page_limit := 1, photo_allowed := false, date_format := "MMM YYYY–MMM YYYY",
      spelling := "en-US",
      sections := ["Summary", "Experience", "Education", "Projects", "Skills",
        "Certifications", "Publications", "Patents"],
      notes := ["Early-career resumes typically 1 page.",
        "Avoid headers/footers for key info.", "Single column. No graphics."] }),
   ("DE",
    { page_limit := 2, photo_allowed := false, date_format := "MM/YYYY–MM/YYYY",
      spelling := "de-DE",
      sections := ["Profil", "Berufserfahrung", "Ausbildung", "Projekte",
        "Fähigkeiten", "Zertifikate", "Publikationen", "Patente"],
      notes := ["Photo is culturally common but optional. Keep off for ATS fairness.",
        "List languages with CEFR levels (e.g., B2)."] }),
   ("FR",
    { page_limit := 2, photo_allowed := false, date_format := "MM/YYYY–MM/YYYY",
      spelling := "fr-FR",
      sections := ["Profil", "Expérience", "Éducation", "Projets", "Compétences",
        "Certifications", "Publications", "Brevets"],
      notes := ["Photo sometimes used; for ATS mode, keep off.",
        "Use accents correctly (é, ç)."] }),
   ("IN",
    { page_limit := 2, photo_allowed := false, date_format := "MMM YYYY–MMM YYYY",
      spelling := "en-IN",
      sections := ["Summary", "Experience", "Education", "Projects", "Skills",
        "Certifications", "Publications", "Patents"],
      notes := ["Keep format ATS-simple; avoid images and tables.",
        "Quantify impact (%, ₹, time saved)."] })]

def defaultPack (country : String) : Option CountryPack :=
  (DEFAULT_PACKS.find? (fun p => p.1 == country)).map (fun p => p.2)

/-- `DEFAULT_PACKS[country]?.sections ?? DEFAULT_PACKS['UK'].sections`. -/
def defaultSections (country : String) : List String :=
  ((defaultPack country).map (fun p => p.sections)).getD
    (((defaultPack "UK").map (fun p => p.sections)).getD [])

/-- The four force-appended section names. -/
def EXTRA_SECTIONS : List String := ["Projects", "Certifications", "Publications", "Patents"]

def containsCI (l : List String) (s : String) : Bool :=
  l.any (fun x => strLower x == strLower s)

/-- `ensureExtras` from `updateCountryPackFromGemini`: append each missing
extra section (case-insensitive membership test). -/
def ensureExtras (arr : List String) : List String :=
  EXTRA_SECTIONS.foldl (fun out s => if containsCI out s then out else out ++ [s]) arr

/-- The remotely fetched spec (`fetchCVSpecCloudLocal` result), as consumed
by `updateCountryPackFromGemini`.  `section_order` is `none` when the field
is absent or not an array; `photo_allowed` is the truthiness of the raw
field (`!!spec.photo_allowed`). -/
structure RemoteSpec where
  section_order : Option (List String)
  page_limit : Option Nat
  photo_allowed : Bool
  date_format : Option String
  spelling : Option String
  notes : Option (List String)
deriving DecidableEq, Repr

/-- JS `x || default` for an optional string field: absent or empty falls
back. -/
def orDefaultStr (o : Option String) (d : String) : String :=
  match o with
  | some v => if v = "" then d else v
  | none => d

/-- `updateCountryPackFromGemini` from main.js.  `fetched` is `none` when
the fetch throws (the `catch` leaves the cache untouched). -/
def updateCountryPackFromGemini (country : String) (fetched : Option RemoteSpec)
    (packs : String → CountryPack) : String → CountryPack :=
  match fetched with
  | none => packs
  | some spec =>
    let baseSections := defaultSections country
    let specSections :=
      match spec.section_order with
      | some l => if l.isEmpty then baseSections else l
      | none => baseSections
    let newPack : CountryPack :=
      { page_limit := spec.page_limit.getD (((defaultPack country).map
          (fun p => p.page_limit)).getD 2),
        photo_allowed := spec.photo_allowed,
        date_format := orDefaultStr spec.date_format (((defaultPack country).map
          (fun p => p.date_format)).getD "MMM YYYY–MMM YYYY"),
        spelling := orDefaultStr spec.spelling (((defaultPack country).map
          (fun p => p.spelling)).getD "en-GB"),
        sections := ensureExtras specSections,
        notes := spec.notes.getD (((defaultPack country).map
          (fun p => p.notes)).getD []) }
    fun c => if c == country then newPack else packs c

/-- One step of `ensureExtras`. -/
def ensureStep (out : List String) (s : String) : List String :=
  if containsCI out s then out else out ++ [s]

/-- An 1100-word document (spec's page-limit test input): the summary holds
1100 space-separated words, everything else is empty. -/
def summary1100 : String := String.mk (joinSp (List.replicate 1100 "word".data))

def cv1100 : CVDoc :=
  ⟨⟨"", "", "", ⟨"", "", "", "", ""⟩, summary1100⟩,
   [], [], [], [], [], [], [], ⟨"US", true, "auto"⟩⟩

/-- A rule pack with `page_limit: 1` (the US default). -/
def packLimit1 : CountryPack :=
  { page_limit := 1, photo_allowed := false, date_format := "MMM YYYY–MMM YYYY",
    spelling := "en-US", sections := [], notes := [] }

/- ===== theorems ===== -/

theorem wsNormd_collapseAux (l : List Char) : ∀ b, wsNormd b (collapseAux b l) = true := by
  induction l with
  | nil => intro b; simp [collapseAux, wsNormd]
  | cons c cs ih =>
    intro b
    by_cases hws : isWsChar c = true
    · cases b with
      | false =>
        simp only [collapseAux, hws, if_true, Bool.false_eq_true, if_false]
        simp only [wsNormd]
        have : isWsChar ' ' = true := by decide
        simp [this, ih true]
      | true =>
        simp only [collapseAux, hws, if_true]
        exact ih true
    · simp only [collapseAux, hws, Bool.false_eq_true, if_false, wsNormd]
      exact ih false

theorem wsNormd_mono (l : List Char) (h : wsNormd true l = true) :
    wsNormd false l = true := by
  cases l with
  | nil => simp [wsNormd]
  | cons c cs =>
    by_cases hws : isWsChar c = true
    · simp [wsNormd, hws] at h
    · simpa [wsNormd, hws] using h

theorem wsNormd_dropTrailWs (l : List Char) : ∀ b, wsNormd b l = true →
    wsNormd b (dropTrailWs l) = true := by
  induction l with
  | nil => intro b _; simpa [dropTrailWs]
  | cons c cs ih =>
    intro b h
    by_cases hws : isWsChar c = true
    · simp only [wsNormd, hws, if_true, Bool.and_eq_true] at h
      obtain ⟨⟨hsp, hb⟩, htail⟩ := h
      have := ih true htail
      simp only [dropTrailWs]
      cases hr : dropTrailWs cs with
      | nil => simp [hws, wsNormd]
      | cons r rs =>
        rw [hr] at this
        simp only [wsNormd, hws, if_true, Bool.and_eq_true]
        exact ⟨⟨hsp, hb⟩, this⟩
    · simp only [wsNormd, hws, Bool.false_eq_true, if_false] at h
      have := ih false h
      simp only [dropTrailWs]
      cases hr : dropTrailWs cs with
      | nil => simp [hws, wsNormd]
      | cons r rs =>
        rw [hr] at this
        simp only [wsNormd, hws, Bool.false_eq_true, if_false]
        exact this

theorem wsNormd_dropWhile (l : List Char) (h : wsNormd false l = true) :
    wsNormd false (l.dropWhile isWsChar) = true := by
  cases l with
  | nil => simpa [List.dropWhile]
  | cons c cs =>
    by_cases hws : isWsChar c = true
    · simp only [wsNormd, hws, if_true, Bool.and_eq_true] at h
      obtain ⟨⟨hsp, _⟩, htail⟩ := h
      -- after one whitespace char in a collapsed list the next char is not ws
      rw [List.dropWhile_cons, hws, if_pos rfl]
      cases cs with
      | nil => simp [List.dropWhile, wsNormd]
      | cons d ds =>
        by_cases hd : isWsChar d = true
        · simp [wsNormd, hd] at htail
        · rw [List.dropWhile_cons, if_neg hd]
          exact wsNormd_mono _ htail
    · rw [List.dropWhile_cons, if_neg hws]
      exact h

theorem head_dropWhile_not_ws (l : List Char) :
    ∀ c cs, l.dropWhile isWsChar = c :: cs → isWsChar c = false := by
  induction l with
  | nil => intro c cs h; simp [List.dropWhile] at h
  | cons a as ih =>
    intro c cs h
    rw [List.dropWhile_cons] at h
    by_cases ha : isWsChar a = true
    · rw [if_pos ha] at h; exact ih c cs h
    · rw [if_neg ha] at h
      injection h with h1 _
      rw [← h1]
      simpa using ha

theorem last_dropTrailWs_not_ws (l : List Char) :
    ∀ r, (dropTrailWs l).getLast? = some r → isWsChar r = false := by
  induction l with
  | nil => intro r h; simp [dropTrailWs] at h
  | cons c cs ih =>
    intro r h
    simp only [dropTrailWs] at h
    cases hr : dropTrailWs cs with
    | nil =>
      rw [hr] at h
      by_cases hws : isWsChar c = true
      · simp [hws] at h
      · simp only [hws, Bool.false_eq_true, if_false, List.getLast?_singleton,
          Option.some.injEq] at h
        rw [← h]
        simpa using hws
    | cons a as =>
      rw [hr] at h
      rw [List.getLast?_cons_cons] at h
      rw [← hr] at h
      exact ih r h

theorem dropTrailWs_of_last_not_ws (l : List Char)
    (h : ∀ r, l.getLast? = some r → isWsChar r = false) : dropTrailWs l = l := by
  induction l with
  | nil => simp [dropTrailWs]
  | cons c cs ih =>
    simp only [dropTrailWs]
    cases cs with
    | nil =>
      have := h c (by simp)
      simp [dropTrailWs, this]
    | cons d ds =>
      have htail : ∀ r, (d :: ds).getLast? = some r → isWsChar r = false := by
        intro r hrr
        exact h r (by rw [List.getLast?_cons_cons]; exact hrr)
      rw [ih htail]

theorem dropWhile_of_head_not_ws (l : List Char)
    (h : ∀ c cs, l = c :: cs → isWsChar c = false) : l.dropWhile isWsChar = l := by
  cases l with
  | nil => simp
  | cons c cs => rw [List.dropWhile_cons, if_neg (by simp [h c cs rfl])]

/-- A collapsed list is a fixed point of the collapse pass. -/
theorem collapseAux_of_wsNormd (l : List Char) : ∀ b, wsNormd b l = true →
    collapseAux b l = l := by
  induction l with
  | nil => intro b _; simp [collapseAux]
  | cons c cs ih =>
    intro b h
    by_cases hws : isWsChar c = true
    · simp only [wsNormd, hws, if_true, Bool.and_eq_true] at h
      obtain ⟨⟨hsp, hb⟩, htail⟩ := h
      have hb' : b = false := by
        cases b with
        | false => rfl
        | true => simp at hb
      subst hb'
      have hc : c = ' ' := by simpa using hsp
      subst hc
      simp only [collapseAux, hws, if_true, Bool.false_eq_true, if_false]
      rw [ih true htail]
    · simp only [wsNormd, hws, Bool.false_eq_true, if_false] at h
      simp only [collapseAux, hws, Bool.false_eq_true, if_false]
      rw [ih false h]

theorem trimChars_fix (l : List Char)
    (hhead : ∀ c cs, l = c :: cs → isWsChar c = false)
    (hlast : ∀ r, l.getLast? = some r → isWsChar r = false) :
    trimChars l = l := by
  unfold trimChars
  rw [dropWhile_of_head_not_ws l hhead, dropTrailWs_of_last_not_ws l hlast]

/-- Core idempotence: collapse-then-trim is a fixed point of itself. -/
theorem collapseTrim_idem (l : List Char) :
    trimChars (collapseAux false (trimChars (collapseAux false l))) =
      trimChars (collapseAux false l) := by
  set r := trimChars (collapseAux false l) with hr
  have hnormd : wsNormd false r = true := by
    rw [hr]
    unfold trimChars
    exact wsNormd_dropTrailWs _ false (wsNormd_dropWhile _ (wsNormd_collapseAux l false))
  have hfix : collapseAux false r = r := collapseAux_of_wsNormd r false hnormd
  rw [hfix]
  apply trimChars_fix
  · -- head of r is not whitespace
    intro c cs hcons
    rw [hr] at hcons
    unfold trimChars at hcons
    -- r = dropTrailWs (dropWhile ...); its head is the head of the dropWhile result
    cases hdw : (collapseAux false l).dropWhile isWsChar with
    | nil => rw [hdw] at hcons; simp [dropTrailWs] at hcons
    | cons a as =>
      have ha : isWsChar a = false := head_dropWhile_not_ws _ a as hdw
      rw [hdw] at hcons
      simp only [dropTrailWs] at hcons
      cases hdt : dropTrailWs as with
      | nil =>
        rw [hdt] at hcons
        by_cases haw : isWsChar a = true
        · rw [ha] at haw; exact absurd haw (by simp)
        · simp only [ha, Bool.false_eq_true, if_false, List.cons.injEq] at hcons
          rw [← hcons.1]; exact ha
      | cons b bs =>
        rw [hdt] at hcons
        injection hcons with h1 _
        rw [← h1]; exact ha
  · -- last of r is not whitespace
    intro c hc
    rw [hr] at hc
    unfold trimChars at hc
    exact last_dropTrailWs_not_ws _ c hc

theorem string_data_mk (l : List Char) : (String.mk l).data = l := rfl

theorem ctAux_append (l₁ l₂ : List Char) : ∀ b,
    ctAux b (l₁ ++ l₂) = ctAux b l₁ + ctAux (stAfter b l₁) l₂ := by
  induction l₁ with
  | nil => intro b; simp [ctAux, stAfter]
  | cons c cs ih =>
    intro b
    have hshape : (c :: cs) ++ l₂ = c :: (cs ++ l₂) := rfl
    rw [hshape]
    by_cases hws : isWsChar c = true
    · simp only [ctAux, hws, if_true, stAfter, Bool.not_true]
      exact ih false
    · simp only [ctAux, hws, Bool.false_eq_true, if_false, stAfter, Bool.not_false]
      rw [ih true]
      omega

theorem ctAux_true_le_false (l : List Char) : ctAux true l ≤ ctAux false l := by
  cases l with
  | nil => simp [ctAux]
  | cons c cs =>
    by_cases hws : isWsChar c = true
    · simp [ctAux, hws]
    · simp [ctAux, hws]

theorem ctAux_false_le_true_succ (l : List Char) : ctAux false l ≤ ctAux true l + 1 := by
  cases l with
  | nil => simp [ctAux]
  | cons c cs =>
    by_cases hws : isWsChar c = true
    · simp only [ctAux, hws, if_true]
      omega
    · simp only [ctAux, hws, Bool.false_eq_true, if_false, if_true]
      omega

theorem stAfter_true_one_le (l : List Char) : ∀ b, stAfter b l = true →
    b = true ∨ 1 ≤ ctAux false l := by
  induction l with
  | nil => intro b h; exact Or.inl h
  | cons c cs ih =>
    intro b h
    simp only [stAfter] at h
    by_cases hws : isWsChar c = true
    · rcases ih _ h with h1 | h1
      · simp [hws] at h1
      · right; simpa [ctAux, hws] using h1
    · right
      simp [ctAux, hws]

theorem countTokens_append_left (l₁ l₂ : List Char) :
    countTokens l₁ ≤ countTokens (l₁ ++ l₂) := by
  unfold countTokens
  rw [ctAux_append]
  omega

theorem countTokens_append_right (l₁ l₂ : List Char) :
    countTokens l₂ ≤ countTokens (l₁ ++ l₂) := by
  unfold countTokens
  rw [ctAux_append]
  cases hst : stAfter false l₁ with
  | false => omega
  | true =>
    rcases stAfter_true_one_le l₁ false hst with h | h
    · simp at h
    · have := ctAux_false_le_true_succ l₂
      have := ctAux_true_le_false l₂
      omega

theorem countTokens_le_of_isInfix {m l : List Char} (h : m <:+: l) :
    countTokens m ≤ countTokens l := by
  obtain ⟨s, t, hst⟩ := h
  subst hst
  calc countTokens m ≤ countTokens (m ++ t) := countTokens_append_left m t
    _ ≤ countTokens (s ++ (m ++ t)) := countTokens_append_right s (m ++ t)
    _ = countTokens (s ++ m ++ t) := by rw [List.append_assoc]

theorem allWsSp_of_wsNormd (l : List Char) : ∀ b, wsNormd b l = true → allWsSp l = true := by
  induction l with
  | nil => intro b _; simp [allWsSp]
  | cons c cs ih =>
    intro b h
    by_cases hws : isWsChar c = true
    · simp only [wsNormd, hws, if_true, Bool.and_eq_true] at h
      obtain ⟨⟨hsp, _⟩, htail⟩ := h
      have := ih true htail
      simp only [allWsSp, List.all_cons, Bool.and_eq_true] at this ⊢
      exact ⟨by simp [hsp], this⟩
    · simp only [wsNormd, hws, Bool.false_eq_true, if_false] at h
      have := ih false h
      simp only [allWsSp, List.all_cons, Bool.and_eq_true] at this ⊢
      exact ⟨by simp [hws], this⟩

theorem allWsSp_sublist {l m : List Char} (h : List.Sublist m l) (hl : allWsSp l = true) :
    allWsSp m = true := by
  simp only [allWsSp, List.all_eq_true] at hl ⊢
  intro c hc
  exact hl c (h.subset hc)

theorem splitEverySp_ne_nil (l : List Char) : splitEverySp l ≠ [] := by
  cases l with
  | nil => simp [splitEverySp]
  | cons c cs =>
    simp only [splitEverySp]
    by_cases hc : c = ' '
    · rw [if_pos hc]; simp
    · rw [if_neg hc]
      cases splitEverySp cs with
      | nil => simp
      | cons h t => simp

theorem splitEverySp_cons_sp (cs : List Char) :
    splitEverySp (' ' :: cs) = [] :: splitEverySp cs := by
  simp [splitEverySp]

theorem splitEverySp_cons_other (c : Char) (cs : List Char) (hc : ¬ c = ' ')
    (h : List Char) (t : List (List Char)) (hse : splitEverySp cs = h :: t) :
    splitEverySp (c :: cs) = (c :: h) :: t := by
  simp only [splitEverySp, if_neg hc, hse]

/-- In a space-only-whitespace list, the token count equals the number of
non-empty pieces of the single-space split.  Stated jointly with the
in-token variant. -/
theorem ctAux_splitEverySp (l : List Char) (hsp : allWsSp l = true) :
    (ctAux false l = ((splitEverySp l).filter (fun p => !p.isEmpty)).length) ∧
    (∀ h t, splitEverySp l = h :: t →
      ctAux true l = (t.filter (fun p => !p.isEmpty)).length) := by
  induction l with
  | nil =>
    refine ⟨by simp [ctAux, splitEverySp], ?_⟩
    intro h t hht
    simp only [splitEverySp, List.cons.injEq] at hht
    rw [← hht.2]
    simp [ctAux]
  | cons c cs ih =>
    have hsp' : allWsSp cs = true := by
      simp only [allWsSp, List.all_cons, Bool.and_eq_true] at hsp
      exact hsp.2
    have hc : (!isWsChar c || c = ' ') = true := by
      simp only [allWsSp, List.all_cons, Bool.and_eq_true] at hsp
      simpa using hsp.1
    obtain ⟨ihf, iht⟩ := ih hsp'
    by_cases hws : isWsChar c = true
    · have hceq : c = ' ' := by
        rcases Bool.or_eq_true_iff.mp hc with h | h
        · rw [hws] at h; simp at h
        · simpa using h
      subst hceq
      constructor
      · rw [splitEverySp_cons_sp, List.filter_cons]
        simp only [List.isEmpty_nil, Bool.not_true, Bool.false_eq_true, if_false]
        simpa only [ctAux, hws, if_true] using ihf
      · intro h t hht
        rw [splitEverySp_cons_sp] at hht
        injection hht with h1 h2
        rw [← h2]
        simpa only [ctAux, hws, if_true] using ihf
    · have hcsp : ¬ c = ' ' := by
        intro hc'; subst hc'; exact hws (by decide)
      obtain ⟨h, t, hse⟩ : ∃ h t, splitEverySp cs = h :: t := by
        cases hx : splitEverySp cs with
        | nil => exact absurd hx (splitEverySp_ne_nil cs)
        | cons a b => exact ⟨a, b, rfl⟩
      constructor
      · rw [splitEverySp_cons_other c cs hcsp h t hse, List.filter_cons]
        have hne : (!(c :: h).isEmpty) = true := by simp
        rw [if_pos hne]
        simp only [List.length_cons]
        have := iht h t hse
        simp only [ctAux, hws, Bool.false_eq_true, if_false, if_true]
        omega
      · intro h' t' hht
        rw [splitEverySp_cons_other c cs hcsp h t hse] at hht
        injection hht with h1 h2
        rw [← h2]
        have := iht h t hse
        simp [ctAux, hws]
        omega

theorem countTokens_eq_splitSp (l : List Char) (hsp : allWsSp l = true) :
    countTokens l = (splitSpFilter l).length :=
  (ctAux_splitEverySp l hsp).1

/-- Pieces of the single-space split contain no space. -/
theorem splitEverySp_no_space (l : List Char) :
    ∀ p ∈ splitEverySp l, ∀ c ∈ p, ¬ c = ' ' := by
  induction l with
  | nil =>
    intro p hp c hc
    simp only [splitEverySp, List.mem_singleton] at hp
    subst hp; simp at hc
  | cons a as ih =>
    intro p hp c hc
    simp only [splitEverySp] at hp
    by_cases ha : a = ' '
    · rw [if_pos ha] at hp
      rcases List.mem_cons.mp hp with h | h
      · subst h; simp at hc
      · exact ih p h c hc
    · rw [if_neg ha] at hp
      cases hse : splitEverySp as with
      | nil =>
        rw [hse] at hp
        simp only [List.mem_singleton] at hp
        subst hp
        rcases List.mem_cons.mp hc with h | h
        · subst h; exact ha
        · simp at h
      | cons h t =>
        rw [hse] at hp
        rcases List.mem_cons.mp hp with hh | hh
        · subst hh
          rcases List.mem_cons.mp hc with h1 | h1
          · subst h1; exact ha
          · exact ih h (by rw [hse]; exact List.mem_cons_self h t) c h1
        · exact ih p (by rw [hse]; exact List.mem_cons_of_mem h hh) c hc

theorem splitEverySp_chars (l : List Char) :
    ∀ p ∈ splitEverySp l, ∀ c ∈ p, c ∈ l := by
  induction l with
  | nil =>
    intro p hp c hc
    simp only [splitEverySp, List.mem_singleton] at hp
    subst hp; simp at hc
  | cons a as ih =>
    intro p hp c hc
    simp only [splitEverySp] at hp
    by_cases ha : a = ' '
    · rw [if_pos ha] at hp
      rcases List.mem_cons.mp hp with h | h
      · subst h; simp at hc
      · exact List.mem_cons_of_mem a (ih p h c hc)
    · rw [if_neg ha] at hp
      cases hse : splitEverySp as with
      | nil =>
        rw [hse] at hp
        simp only [List.mem_singleton] at hp
        subst hp
        rcases List.mem_cons.mp hc with h | h
        · simp [h]
        · simp at h
      | cons h t =>
        rw [hse] at hp
        rcases List.mem_cons.mp hp with hh | hh
        · subst hh
          rcases List.mem_cons.mp hc with h1 | h1
          · simp [h1]
          · exact List.mem_cons_of_mem a
              (ih h (by rw [hse]; exact List.mem_cons_self h t) c h1)
        · exact List.mem_cons_of_mem a
            (ih p (by rw [hse]; exact List.mem_cons_of_mem h hh) c hc)

theorem ctAux_le_one_of_no_ws (p : List Char) (hp : ∀ c ∈ p, isWsChar c = false) :
    ctAux false p ≤ 1 ∧ ctAux true p = 0 := by
  induction p with
  | nil => simp [ctAux]
  | cons c cs ih =>
    have hc : isWsChar c = false := hp c (List.mem_cons_self c cs)
    have := ih (fun d hd => hp d (List.mem_cons_of_mem c hd))
    constructor
    · simp only [ctAux, hc, Bool.false_eq_true, if_false, if_true]
      omega
    · simp only [ctAux, hc, Bool.false_eq_true, if_false, if_true]
      omega

/-- Joining whitespace-free pieces with single spaces yields at most one
token per piece. -/
theorem countTokens_joinSp_le (ps : List (List Char))
    (hps : ∀ p ∈ ps, ∀ c ∈ p, isWsChar c = false) :
    countTokens (joinSp ps) ≤ ps.length := by
  induction ps with
  | nil => simp [joinSp, countTokens, ctAux]
  | cons p ps ih =>
    have hp : ∀ c ∈ p, isWsChar c = false := hps p (List.mem_cons_self p ps)
    have hrest := ih (fun q hq c hc => hps q (List.mem_cons_of_mem p hq) c hc)
    cases ps with
    | nil =>
      simp only [joinSp, List.length_cons, List.length_nil]
      have := ctAux_le_one_of_no_ws p hp
      unfold countTokens
      omega
    | cons q qs =>
      show countTokens (p ++ ' ' :: joinSp (q :: qs)) ≤ (q :: qs).length + 1
      unfold countTokens
      rw [ctAux_append]
      have h1 := ctAux_le_one_of_no_ws p hp
      have hsp : isWsChar ' ' = true := by decide
      have h2 : ∀ b, ctAux b (' ' :: joinSp (q :: qs)) = ctAux false (joinSp (q :: qs)) := by
        intro b
        simp [ctAux, hsp]
      rw [h2]
      have h3 : ctAux false (joinSp (q :: qs)) ≤ (q :: qs).length := hrest
      cases hst : stAfter false p with
      | false => have := h1.1; omega
      | true => have := h1.1; omega

theorem dropTrailWs_isPrefix (l : List Char) : ∃ t, dropTrailWs l ++ t = l := by
  induction l with
  | nil => exact ⟨[], rfl⟩
  | cons c cs ih =>
    obtain ⟨t, ht⟩ := ih
    simp only [dropTrailWs]
    cases hr : dropTrailWs cs with
    | nil =>
      by_cases hws : isWsChar c = true
      · rw [if_pos hws]
        exact ⟨c :: cs, rfl⟩
      · rw [if_neg (by simpa using hws)]
        rw [hr] at ht
        exact ⟨t, by simpa using congrArg (c :: ·) ht⟩
    | cons r rs =>
      rw [hr] at ht
      exact ⟨t, by simpa using congrArg (c :: ·) ht⟩

theorem trimChars_isInfix (l : List Char) : List.IsInfix (trimChars l) l := by
  unfold trimChars
  obtain ⟨t, ht⟩ := dropTrailWs_isPrefix (l.dropWhile isWsChar)
  have hpre : List.IsPrefix (dropTrailWs (l.dropWhile isWsChar)) (l.dropWhile isWsChar) := ⟨t, ht⟩
  have hsuf : List.IsSuffix (l.dropWhile isWsChar) l :=
    ⟨l.takeWhile isWsChar, List.takeWhile_append_dropWhile _ _⟩
  exact hpre.isInfix.trans hsuf.isInfix

theorem trimChars_sublist (l : List Char) : List.Sublist (trimChars l) l :=
  (trimChars_isInfix l).sublist

theorem metaStrip_sublist (l : List Char) : List.Sublist (metaStrip l) l := by
  unfold metaStrip
  cases metaLineLen l with
  | none => exact List.Sublist.refl l
  | some n => exact (trimChars_sublist _).trans (List.drop_sublist n l)

theorem notClauseAux_sublist (l : List Char) : ∀ b, List.Sublist (notClauseAux l b) l := by
  induction l with
  | nil => intro b; simp [notClauseAux]
  | cons c cs ih =>
    intro b
    simp only [notClauseAux]
    by_cases hm : (!b && matchNotAt (c :: cs)) = true
    · rw [if_pos hm]
      cases hd : searchDelim (List.drop 2 cs) with
      | some m => exact ((List.drop_sublist (2 + m) cs).trans (List.sublist_cons_self c cs))
      | none => exact (ih (isWordCh c)).cons₂ c
    · rw [if_neg hm]
      exact (ih (isWordCh c)).cons₂ c

theorem wsNormd_collapseTrim (l : List Char) :
    wsNormd false (trimChars (collapseAux false l)) = true := by
  unfold trimChars
  exact wsNormd_dropTrailWs _ false (wsNormd_dropWhile _ (wsNormd_collapseAux l false))

theorem allWsSp_sblPreCap (l1 : List Char) : allWsSp (sblPreCap l1) = true := by
  unfold sblPreCap
  have h3 : allWsSp (trimChars (collapseAux false (bulletMarkStrip l1))) = true :=
    allWsSp_of_wsNormd _ false (wsNormd_collapseTrim _)
  have h4 := allWsSp_sublist (metaStrip_sublist _) h3
  have h5 := allWsSp_sublist (notClauseAux_sublist _ false) h4
  exact allWsSp_sublist (trimChars_sublist _) h5

theorem countTokens_sblCap (l5 : List Char) (h : allWsSp l5 = true) :
    countTokens (sblCap l5) ≤ MAX_BULLET_WORDS := by
  unfold sblCap
  by_cases hlen : (splitSpFilter l5).length > MAX_BULLET_WORDS
  · rw [if_pos hlen]
    have hwf : ∀ p ∈ (splitSpFilter l5).take MAX_BULLET_WORDS, ∀ c ∈ p, isWsChar c = false := by
      intro p hp c hc
      have hp' : p ∈ splitSpFilter l5 := List.mem_of_mem_take hp
      have hp'' : p ∈ splitEverySp l5 := List.mem_of_mem_filter hp'
      have hnosp : ¬ c = ' ' := splitEverySp_no_space l5 p hp'' c hc
      have hmem : c ∈ l5 := splitEverySp_chars l5 p hp'' c hc
      simp only [allWsSp, List.all_eq_true] at h
      have := h c hmem
      rcases Bool.or_eq_true_iff.mp this with h1 | h1
      · simp at h1; exact h1
      · exact absurd (by simpa using h1) hnosp
    calc countTokens (joinSp ((splitSpFilter l5).take MAX_BULLET_WORDS))
        ≤ ((splitSpFilter l5).take MAX_BULLET_WORDS).length := countTokens_joinSp_le _ hwf
      _ ≤ MAX_BULLET_WORDS := by
          have := List.length_take_le MAX_BULLET_WORDS (splitSpFilter l5)
          omega
  · rw [if_neg hlen]
    rw [countTokens_eq_splitSp l5 h]
    omega

theorem dropTrailPunctTrim_isInfix (l : List Char) : List.IsInfix (dropTrailPunctTrim l) l := by
  unfold dropTrailPunctTrim
  cases hrev : (dropTrailWs l).reverse with
  | nil => exact trimChars_isInfix l
  | cons c cs =>
    show List.IsInfix (if endPuncts.contains c = true then trimChars cs.reverse else trimChars l) l
    by_cases hp : endPuncts.contains c = true
    · rw [if_pos hp]
      have h1 : dropTrailWs l = cs.reverse ++ [c] := by
        have := congrArg List.reverse hrev
        simpa using this
      obtain ⟨t, ht⟩ := dropTrailWs_isPrefix l
      have hpre : List.IsPrefix cs.reverse l := by
        refine ⟨[c] ++ t, ?_⟩
        rw [← List.append_assoc, ← h1, ht]
      exact (trimChars_isInfix _).trans hpre.isInfix
    · rw [if_neg hp]
      exact trimChars_isInfix l

theorem dropQuoteEnds_isInfix (l : List Char) : List.IsInfix (dropQuoteEnds l) l := by
  unfold dropQuoteEnds
  have hsuf : List.IsSuffix (l.dropWhile isQuoteCh) l :=
    ⟨l.takeWhile isQuoteCh, List.takeWhile_append_dropWhile _ _⟩
  have hsuf2 : List.IsSuffix ((l.dropWhile isQuoteCh).reverse.dropWhile isQuoteCh)
      (l.dropWhile isQuoteCh).reverse :=
    ⟨(l.dropWhile isQuoteCh).reverse.takeWhile isQuoteCh, List.takeWhile_append_dropWhile _ _⟩
  have hpre : List.IsPrefix ((l.dropWhile isQuoteCh).reverse.dropWhile isQuoteCh).reverse
      (l.dropWhile isQuoteCh) := by
    have := List.reverse_prefix.mpr hsuf2
    simpa using this
  exact hpre.isInfix.trans hsuf.isInfix

/-- The word cap bounds every `sanitizeBulletLine` result at 22
whitespace-delimited tokens. -/
theorem sanitizeBulletLine_tokens_le (s : String) :
    countTokensStr (sanitizeBulletLine s) ≤ MAX_BULLET_WORDS := by
  unfold sanitizeBulletLine countTokensStr sblCore
  rw [string_data_mk]
  have hcap := countTokens_sblCap (sblPreCap (stripMeta s).data)
    (allWsSp_sblPreCap (stripMeta s).data)
  have h7 := countTokens_le_of_isInfix (dropTrailPunctTrim_isInfix (sblCap (sblPreCap (stripMeta s).data)))
  have h8 := countTokens_le_of_isInfix
    (dropQuoteEnds_isInfix (dropTrailPunctTrim (sblCap (sblPreCap (stripMeta s).data))))
  omega

theorem sblAux_sublist (ls : List String) : ∀ seen,
    List.Sublist (sblAux ls seen) (ls.map sanitizeBulletLine) := by
  induction ls with
  | nil => intro seen; simp [sblAux]
  | cons l ls ih =>
    intro seen
    simp only [sblAux, List.map_cons]
    by_cases h1 : sanitizeBulletLine l = ""
    · rw [if_pos h1]
      exact (ih seen).trans (List.sublist_cons_self _ _)
    · rw [if_neg h1]
      by_cases h2 : containsBadPhrase (sanitizeBulletLine l) = true
      · rw [if_pos h2]
        exact (ih seen).trans (List.sublist_cons_self _ _)
      · rw [if_neg h2]
        by_cases h3 : seen.contains (strLower (sanitizeBulletLine l)) = true
        · rw [if_pos h3]
          exact (ih seen).trans (List.sublist_cons_self _ _)
        · rw [if_neg h3]
          exact (ih _).cons₂ _

theorem sblAux_mem (ls : List String) : ∀ seen s, s ∈ sblAux ls seen →
    (∃ l ∈ ls, s = sanitizeBulletLine l) ∧ s ≠ "" ∧ strLower s ∉ seen := by
  induction ls with
  | nil => intro seen s h; simp [sblAux] at h
  | cons l ls ih =>
    intro seen s h
    simp only [sblAux] at h
    by_cases h1 : sanitizeBulletLine l = ""
    · rw [if_pos h1] at h
      obtain ⟨⟨l', hl', hs⟩, hne, hseen⟩ := ih seen s h
      exact ⟨⟨l', List.mem_cons_of_mem l hl', hs⟩, hne, hseen⟩
    · rw [if_neg h1] at h
      by_cases h2 : containsBadPhrase (sanitizeBulletLine l) = true
      · rw [if_pos h2] at h
        obtain ⟨⟨l', hl', hs⟩, hne, hseen⟩ := ih seen s h
        exact ⟨⟨l', List.mem_cons_of_mem l hl', hs⟩, hne, hseen⟩
      · rw [if_neg h2] at h
        by_cases h3 : seen.contains (strLower (sanitizeBulletLine l)) = true
        · rw [if_pos h3] at h
          obtain ⟨⟨l', hl', hs⟩, hne, hseen⟩ := ih seen s h
          exact ⟨⟨l', List.mem_cons_of_mem l hl', hs⟩, hne, hseen⟩
        · rw [if_neg h3] at h
          rcases List.mem_cons.mp h with h4 | h4
          · subst h4
            refine ⟨⟨l, List.mem_cons_self l ls, rfl⟩, h1, ?_⟩
            intro hmem
            exact h3 (List.elem_iff.mpr hmem)
          · obtain ⟨⟨l', hl', hs⟩, hne, hseen⟩ := ih _ s h4
            refine ⟨⟨l', List.mem_cons_of_mem l hl', hs⟩, hne, ?_⟩
            intro hmem
            exact hseen (List.mem_cons_of_mem _ hmem)

theorem sblAux_lower_nodup (ls : List String) : ∀ seen,
    ((sblAux ls seen).map strLower).Nodup := by
  induction ls with
  | nil => intro seen; simp [sblAux]
  | cons l ls ih =>
    intro seen
    simp only [sblAux]
    by_cases h1 : sanitizeBulletLine l = ""
    · rw [if_pos h1]; exact ih seen
    · rw [if_neg h1]
      by_cases h2 : containsBadPhrase (sanitizeBulletLine l) = true
      · rw [if_pos h2]; exact ih seen
      · rw [if_neg h2]
        by_cases h3 : seen.contains (strLower (sanitizeBulletLine l)) = true
        · rw [if_pos h3]; exact ih seen
        · rw [if_neg h3]
          simp only [List.map_cons, List.nodup_cons]
          refine ⟨?_, ih _⟩
          intro hmem
          obtain ⟨s, hs, hlow⟩ := List.mem_map.mp hmem
          have := (sblAux_mem ls _ s hs).2.2
          apply this
          rw [hlow]
          exact List.mem_cons_self _ _

theorem splitNlCh_no_newline (l : List Char) :
    ∀ p ∈ splitNlCh l, ∀ c ∈ p, ¬ c = '\n' := by
  induction l with
  | nil =>
    intro p hp c hc
    simp only [splitNlCh, List.mem_singleton] at hp
    subst hp; simp at hc
  | cons a as ih =>
    intro p hp c hc
    simp only [splitNlCh] at hp
    by_cases ha : a = '\n'
    · rw [if_pos ha] at hp
      rcases List.mem_cons.mp hp with h | h
      · subst h; simp at hc
      · exact ih p h c hc
    · rw [if_neg ha] at hp
      cases hse : splitNlCh as with
      | nil =>
        rw [hse] at hp
        simp only [List.mem_singleton] at hp
        subst hp
        rcases List.mem_cons.mp hc with h | h
        · subst h; exact ha
        · simp at h
      | cons h t =>
        rw [hse] at hp
        rcases List.mem_cons.mp hp with hh | hh
        · subst hh
          rcases List.mem_cons.mp hc with h1 | h1
          · subst h1; exact ha
          · exact ih h (by rw [hse]; exact List.mem_cons_self h t) c h1
        · exact ih p (by rw [hse]; exact List.mem_cons_of_mem h hh) c hc

theorem head_trimChars_not_ws (l : List Char) :
    ∀ c cs, trimChars l = c :: cs → isWsChar c = false := by
  intro c cs h
  unfold trimChars at h
  cases hdw : l.dropWhile isWsChar with
  | nil => rw [hdw] at h; simp [dropTrailWs] at h
  | cons a as =>
    have ha : isWsChar a = false := head_dropWhile_not_ws l a as hdw
    rw [hdw] at h
    simp only [dropTrailWs] at h
    cases hdt : dropTrailWs as with
    | nil =>
      rw [hdt] at h
      by_cases haw : isWsChar a = true
      · rw [ha] at haw; exact absurd haw (by simp)
      · rw [if_neg haw] at h
        injection h with h1 _
        rw [← h1]; exact ha
    | cons b bs =>
      rw [hdt] at h
      injection h with h1 _
      rw [← h1]; exact ha

/-- `trim` is idempotent. -/
theorem trimChars_idem (l : List Char) : trimChars (trimChars l) = trimChars l := by
  apply trimChars_fix
  · exact head_trimChars_not_ws l
  · intro r hr
    unfold trimChars at hr
    exact last_dropTrailWs_not_ws _ r hr

theorem dedupFirstAux_mem (l : List String) : ∀ seen x, x ∈ dedupFirstAux l seen → x ∈ l := by
  induction l with
  | nil => intro seen x h; simp [dedupFirstAux] at h
  | cons s ss ih =>
    intro seen x h
    simp only [dedupFirstAux] at h
    by_cases hc : seen.contains s = true
    · rw [if_pos hc] at h
      exact List.mem_cons_of_mem s (ih seen x h)
    · rw [if_neg hc] at h
      rcases List.mem_cons.mp h with h1 | h1
      · subst h1; exact List.mem_cons_self x ss
      · exact List.mem_cons_of_mem s (ih _ x h1)

theorem dedupFirstAux_not_seen (l : List String) : ∀ seen x, x ∈ dedupFirstAux l seen →
    ¬ seen.contains x = true := by
  induction l with
  | nil => intro seen x h; simp [dedupFirstAux] at h
  | cons s ss ih =>
    intro seen x h
    simp only [dedupFirstAux] at h
    by_cases hc : seen.contains s = true
    · rw [if_pos hc] at h
      exact ih seen x h
    · rw [if_neg hc] at h
      rcases List.mem_cons.mp h with h1 | h1
      · subst h1; exact hc
      · have := ih _ x h1
        intro hx
        apply this
        simp only [List.contains_cons, Bool.or_eq_true]
        exact Or.inr hx

theorem dedupFirstAux_nodup (l : List String) : ∀ seen, (dedupFirstAux l seen).Nodup := by
  induction l with
  | nil => intro seen; simp [dedupFirstAux]
  | cons s ss ih =>
    intro seen
    simp only [dedupFirstAux]
    by_cases hc : seen.contains s = true
    · rw [if_pos hc]; exact ih seen
    · rw [if_neg hc]
      refine List.nodup_cons.mpr ⟨?_, ih _⟩
      intro hmem
      have := dedupFirstAux_not_seen ss _ s hmem
      apply this
      simp [List.contains_cons]

theorem dedupFirstAux_mem_intro (l : List String) : ∀ seen x, x ∈ l →
    ¬ seen.contains x = true → x ∈ dedupFirstAux l seen := by
  induction l with
  | nil => intro seen x h _; simp at h
  | cons s ss ih =>
    intro seen x h hseen
    simp only [dedupFirstAux]
    by_cases hc : seen.contains s = true
    · rw [if_pos hc]
      rcases List.mem_cons.mp h with h1 | h1
      · subst h1; exact absurd hc hseen
      · exact ih seen x h1 hseen
    · rw [if_neg hc]
      by_cases hx : x = s
      · subst hx; exact List.mem_cons_self x _
      · rcases List.mem_cons.mp h with h1 | h1
        · exact absurd h1 hx
        · refine List.mem_cons_of_mem s (ih _ x h1 ?_)
          intro hx2
          simp only [List.contains_cons, Bool.or_eq_true] at hx2
          rcases hx2 with hx2 | hx2
          · exact hx (eq_of_beq hx2)
          · exact hseen hx2

theorem dedupFirstStr_ne_nil (l : List String) (h : l ≠ []) : dedupFirstStr l ≠ [] := by
  cases l with
  | nil => exact absurd rfl h
  | cons s ss =>
    unfold dedupFirstStr
    show dedupFirstAux (s :: ss) [] ≠ []
    simp only [dedupFirstAux]
    rw [if_neg (by simp)]
    exact List.cons_ne_nil _ _

theorem insertStr_perm (a : String) (l : List String) :
    List.Perm (insertStr a l) (a :: l) := by
  induction l with
  | nil => simp [insertStr]
  | cons b bs ih =>
    simp only [insertStr]
    by_cases hle : lexLe a.data b.data = true
    · rw [if_pos hle]
    · rw [if_neg hle]
      exact (List.Perm.cons b ih).trans (List.Perm.swap a b bs)

theorem sortStrings_perm (l : List String) : List.Perm (sortStrings l) l := by
  induction l with
  | nil => simp [sortStrings]
  | cons a as ih =>
    simp only [sortStrings]
    exact (insertStr_perm a (sortStrings as)).trans (List.Perm.cons a ih)

theorem mem_sortStrings (l : List String) (x : String) : x ∈ sortStrings l ↔ x ∈ l :=
  (sortStrings_perm l).mem_iff

theorem nodup_sortStrings (l : List String) (h : l.Nodup) : (sortStrings l).Nodup :=
  ((sortStrings_perm l).nodup_iff).mpr h

theorem sortStrings_ne_nil (l : List String) (h : l ≠ []) : sortStrings l ≠ [] := by
  intro hnil
  have := (sortStrings_perm l).length_eq
  rw [hnil] at this
  simp only [List.length_nil] at this
  exact h (List.eq_nil_of_length_eq_zero this.symm)

theorem firstPerNormAux_subset (raw : List String) : ∀ seen r,
    r ∈ firstPerNormAux raw seen → r ∈ raw := by
  induction raw with
  | nil => intro seen r h; simp [firstPerNormAux] at h
  | cons a as ih =>
    intro seen r h
    simp only [firstPerNormAux] at h
    by_cases hc : (normSkill a = "" || seen.contains (normSkill a)) = true
    · rw [if_pos hc] at h
      exact List.mem_cons_of_mem a (ih seen r h)
    · rw [if_neg hc] at h
      rcases List.mem_cons.mp h with h1 | h1
      · subst h1; exact List.mem_cons_self r as
      · exact List.mem_cons_of_mem a (ih _ r h1)

theorem firstPerNormAux_covers (raw : List String) : ∀ seen r, r ∈ raw →
    ¬ normSkill r = "" → ¬ seen.contains (normSkill r) = true →
    ∃ r2, r2 ∈ firstPerNormAux raw seen ∧ normSkill r2 = normSkill r := by
  induction raw with
  | nil => intro seen r h; simp at h
  | cons a as ih =>
    intro seen r h hne hseen
    simp only [firstPerNormAux]
    by_cases hc : (normSkill a = "" || seen.contains (normSkill a)) = true
    · rw [if_pos hc]
      rcases List.mem_cons.mp h with h1 | h1
      · subst h1
        rcases Bool.or_eq_true_iff.mp hc with h2 | h2
        · exact absurd (by simpa using h2) hne
        · exact absurd h2 hseen
      · exact ih seen r h1 hne hseen
    · rw [if_neg hc]
      by_cases heq : normSkill a = normSkill r
      · exact ⟨a, List.mem_cons_self a _, heq⟩
      · rcases List.mem_cons.mp h with h1 | h1
        · subst h1; exact absurd rfl heq
        · obtain ⟨r2, hr2, hn⟩ := ih (normSkill a :: seen) r h1 hne (by
            intro hx
            simp only [List.contains_cons, Bool.or_eq_true] at hx
            rcases hx with hx | hx
            · exact heq (eq_of_beq hx).symm
            · exact hseen hx)
          exact ⟨r2, List.mem_cons_of_mem a hr2, hn⟩

theorem ensureExtras_eq_foldl (arr : List String) :
    ensureExtras arr = EXTRA_SECTIONS.foldl ensureStep arr := rfl

theorem containsCI_append_right (l : List String) (t : List String) (s : String)
    (h : containsCI l s = true) : containsCI (l ++ t) s = true := by
  simp only [containsCI, List.any_append, Bool.or_eq_true]
  exact Or.inl h

theorem containsCI_ensureStep (out : List String) (s t : String)
    (h : containsCI out s = true) : containsCI (ensureStep out t) s = true := by
  unfold ensureStep
  by_cases hc : containsCI out t = true
  · rw [if_pos hc]; exact h
  · rw [if_neg hc]; exact containsCI_append_right out [t] s h

theorem containsCI_ensureStep_self (out : List String) (s : String) :
    containsCI (ensureStep out s) s = true := by
  unfold ensureStep
  by_cases hc : containsCI out s = true
  · rw [if_pos hc]; exact hc
  · rw [if_neg hc]
    simp only [containsCI, List.any_append, Bool.or_eq_true]
    right
    simp [List.any_cons]

theorem containsCI_foldl_preserve (need : List String) : ∀ arr s,
    containsCI arr s = true → containsCI (need.foldl ensureStep arr) s = true := by
  induction need with
  | nil => intro arr s h; simpa using h
  | cons n ns ih =>
    intro arr s h
    simp only [List.foldl_cons]
    exact ih _ s (containsCI_ensureStep arr s n h)

theorem containsCI_foldl_mem (need : List String) : ∀ arr s, s ∈ need →
    containsCI (need.foldl ensureStep arr) s = true := by
  induction need with
  | nil => intro arr s h; simp at h
  | cons n ns ih =>
    intro arr s h
    simp only [List.foldl_cons]
    rcases List.mem_cons.mp h with h1 | h1
    · subst h1
      exact containsCI_foldl_preserve ns _ s (containsCI_ensureStep_self arr s)
    · exact ih _ s h1

theorem ensureExtras_has_extras (arr : List String) (s : String) (h : s ∈ EXTRA_SECTIONS) :
    containsCI (ensureExtras arr) s = true := by
  rw [ensureExtras_eq_foldl]
  exact containsCI_foldl_mem EXTRA_SECTIONS arr s h

/-- Claim C6 (corrected): the spec claims every sanitizer is idempotent, and
in particular `sanitizeBulletLine`; but `sanitizeBulletLine` is not
idempotent, because its hedging-clause removal can leave a double space
(and further removable clauses) that a second pass collapses.  On the input
`"a not b, c"` one pass yields `"a  c"` and a second pass yields `"a c"`. -/
theorem c6_sanitizeBulletLine_not_idempotent :
    sanitizeBulletLine (sanitizeBulletLine "a not b, c") ≠ sanitizeBulletLine "a not b, c" := by
  decide

/-- Claim C6 (corrected, amended): `sanitizeOneLine` is idempotent —
`sanitizeOneLine (sanitizeOneLine x) = sanitizeOneLine x` for every string
`x`; the idempotence contract does not extend to `sanitizeBulletLine`. -/
theorem c6_sanitizeOneLine_idempotent :
    ∀ x : String, sanitizeOneLine (sanitizeOneLine x) = sanitizeOneLine x := by
  intro x
  unfold sanitizeOneLine
  rw [string_data_mk, collapseTrim_idem]

/-- Claim C4 (corrected): the quote-stripping final step of
`sanitizeBulletLine` can re-expose a leading dash that the earlier
bullet-marker strip removed only once: `sanitizeBulletList ["- - hello"]`
returns `["- hello"]`, whose single entry starts with the bullet marker
`-`. -/
theorem c4_counterexample :
    sanitizeBulletList ["- - hello"] = ["- hello"]
    ∧ ("- hello").data.head? = some '-'
    ∧ bulletMarks.contains '-' = true := by
  decide

/-- Claim C4 (corrected, amended): every line returned by
`sanitizeBulletList` has at most 22 whitespace-delimited tokens; no two
returned entries are equal under case-insensitive comparison; the returned
list preserves first-seen order (it is a sublist of the per-line sanitized
input).  A returned line can still begin with a bullet marker when the
input wrapped the marker in quote characters or repeated it. -/
theorem c4_sanitizeBulletList_bounds :
    ∀ lines : List String,
      ((sanitizeBulletList lines).all fun b =>
        decide (countTokensStr b ≤ MAX_BULLET_WORDS)) = true
      ∧ ((sanitizeBulletList lines).map strLower).Nodup
      ∧ List.Sublist (sanitizeBulletList lines) (lines.map sanitizeBulletLine) := by
  intro lines
  refine ⟨?_, sblAux_lower_nodup lines [], sblAux_sublist lines []⟩
  rw [List.all_eq_true]
  intro b hb
  obtain ⟨⟨l, _, hbl⟩, _, _⟩ := sblAux_mem lines [] b hb
  subst hbl
  simp only [decide_eq_true_eq]
  exact sanitizeBulletLine_tokens_le l

/-- Joining whitespace-free pieces with single spaces yields a list whose
whitespace characters are all plain spaces. -/
theorem allWsSp_joinSp (ps : List (List Char))
    (h : ∀ p ∈ ps, ∀ c ∈ p, isWsChar c = false) : allWsSp (joinSp ps) = true := by
  induction ps with
  | nil => decide
  | cons p ps ih =>
    cases ps with
    | nil =>
      show allWsSp p = true
      simp only [allWsSp, List.all_eq_true]
      intro c hc
      have := h p (List.mem_cons_self p []) c hc
      simp [this]
    | cons q qs =>
      show allWsSp (p ++ ' ' :: joinSp (q :: qs)) = true
      have hp : ∀ c ∈ p, isWsChar c = false := h p (List.mem_cons_self _ _)
      have ih2 := ih (fun r hr c hc => h r (List.mem_cons_of_mem p hr) c hc)
      simp only [allWsSp, List.all_append, List.all_cons, Bool.and_eq_true] at ih2 ⊢
      refine ⟨?_, ?_, ih2⟩
      · rw [List.all_eq_true]
        intro c hc
        simp [hp c hc]
      · decide

/-- The word cap preserves the all-spaces whitespace property. -/
theorem allWsSp_sblCap (l5 : List Char) (h : allWsSp l5 = true) :
    allWsSp (sblCap l5) = true := by
  unfold sblCap
  by_cases hlen : (splitSpFilter l5).length > MAX_BULLET_WORDS
  · rw [if_pos hlen]
    apply allWsSp_joinSp
    intro p hp c hc
    have hp' : p ∈ splitSpFilter l5 := List.mem_of_mem_take hp
    have hp'' : p ∈ splitEverySp l5 := List.mem_of_mem_filter hp'
    have hnosp : ¬ c = ' ' := splitEverySp_no_space _ p hp'' c hc
    have hmem : c ∈ l5 := splitEverySp_chars _ p hp'' c hc
    simp only [allWsSp, List.all_eq_true] at h
    have := h c hmem
    rcases Bool.or_eq_true_iff.mp this with h1 | h1
    · simp at h1; exact h1
    · exact absurd (by simpa using h1) hnosp
  · rw [if_neg hlen]
    exact h

/-- Every whitespace character in a `sanitizeBulletLine` result is a plain
space: the collapse step leaves only spaces and no later step introduces
other whitespace.  In particular the result holds no embedded newline. -/
theorem allWsSp_sanitizeBulletLine (s : String) :
    allWsSp (sanitizeBulletLine s).data = true := by
  unfold sanitizeBulletLine sblCore
  rw [string_data_mk]
  exact allWsSp_sublist (dropQuoteEnds_isInfix _).sublist
    (allWsSp_sublist (dropTrailPunctTrim_isInfix _).sublist
      (allWsSp_sblCap _ (allWsSp_sblPreCap _)))

/-- Claim C1 (corrected): two violations of the claimed invariant.  A bullet
line typed by the user into the bullets textarea is stored without any word
cap: a 23-word line enters the document unchanged.  And the AI path can
commit a bullet that is empty after trimming: the line consisting of an
apostrophe, a space and an apostrophe sanitizes to the whitespace-only
string `" "`, which `sanitizeBulletList` keeps and `tierCommit` commits. -/
theorem c1_counterexample :
    (bulletsFromTextarea (String.intercalate " " (List.replicate 23 "w"))
      = [String.intercalate " " (List.replicate 23 "w")]
    ∧ countTokensStr (String.intercalate " " (List.replicate 23 "w")) = 23
    ∧ MAX_BULLET_WORDS = 22)
    ∧ (sanitizeBulletList [String.mk [apos, ' ', apos]] = [" "]
    ∧ strTrim " " = ""
    ∧ tierCommit "Did stuff" (String.mk [apos, ' ', apos]) = some [" "]) := by
  decide

/-- Claim C1 (corrected, amended): bullets stored by the textarea input
handler are single lines (no embedded newline), already trimmed and
non-empty, hence non-empty after trimming; bullets committed through
`sanitizeBulletList` (bullets produced by AI backends) are single lines —
every whitespace character in them is a plain space — have at most 22
whitespace-delimited words and are non-empty as strings, but can consist of
whitespace only (empty after trimming); the 22-word cap does not apply to
user-typed bullets. -/
theorem c1_bullet_invariants :
    ∀ (v : String) (aiLines : List String),
      ((bulletsFromTextarea v).all fun b =>
        (!(b.data.contains '\n')) && (!(b = "")) && (strTrim b == b)) = true
      ∧ ((sanitizeBulletList aiLines).all fun b =>
        decide (countTokensStr b ≤ MAX_BULLET_WORDS) && (!(b = ""))
          && (!(b.data.contains '\n')) && allWsSp b.data) = true := by
  intro v aiLines
  constructor
  · rw [List.all_eq_true]
    intro b hb
    unfold bulletsFromTextarea at hb
    obtain ⟨hb1, hb2⟩ := List.mem_filter.mp hb
    obtain ⟨p, hp, hpb⟩ := List.mem_map.mp hb1
    have hbdata : b.data = trimChars p := by rw [← hpb]
    simp only [Bool.and_eq_true]
    refine ⟨⟨?_, hb2⟩, ?_⟩
    · -- no newline
      rw [hbdata]
      by_contra hcon
      simp only [Bool.not_eq_true', Bool.not_eq_false] at hcon
      have hmem : '\n' ∈ trimChars p := List.elem_iff.mp hcon
      exact splitNlCh_no_newline v.data p hp '\n' ((trimChars_sublist p).subset hmem) rfl
    · -- already trimmed
      have : strTrim b = b := by
        rw [← hpb]
        unfold strTrim
        rw [string_data_mk, trimChars_idem]
      rw [this]
      exact beq_self_eq_true b
  · rw [List.all_eq_true]
    intro b hb
    obtain ⟨⟨l, _, hbl⟩, hne, _⟩ := sblAux_mem aiLines [] b hb
    have hsp : allWsSp b.data = true := by
      rw [hbl]
      exact allWsSp_sanitizeBulletLine l
    simp only [Bool.and_eq_true, decide_eq_true_eq]
    refine ⟨⟨⟨?_, by simpa using hne⟩, ?_⟩, hsp⟩
    · rw [hbl]
      exact sanitizeBulletLine_tokens_le l
    · -- no newline: every whitespace character is a plain space
      by_contra hcon
      simp only [Bool.not_eq_true', Bool.not_eq_false] at hcon
      have hmem : '\n' ∈ b.data := List.elem_iff.mp hcon
      simp only [allWsSp, List.all_eq_true] at hsp
      have := hsp '\n' hmem
      rcases Bool.or_eq_true_iff.mp this with h1 | h1
      · exact absurd h1 (by decide)
      · exact absurd h1 (by decide)

/-- Claim C5 (corrected): `sanitizeTitleText` does not fall back to the
previous value on the action-verb signal; it caps the candidate itself at 6
words.  On the spec's own regression input with prior value
`"Backend Engineer"` it returns `"Developed and led a team of"`, a prefix of
the raw input. -/
theorem c5_counterexample :
    sanitizeTitleText "Developed and led a team of 5 engineers to improve throughput"
        "Backend Engineer" = "Developed and led a team of"
    ∧ ¬ ("Developed and led a team of" = "Backend Engineer") := by
  decide

/-- Claim C5 (corrected, amended): `sanitizeRoleText` behaves as claimed —
when the role candidate (one-lined, marker-stripped first clause of the
input) matches the action-verb pattern and the previous value's cleaned
first clause is non-empty, the result is the one-lined cleaned previous
first clause, and on the regression input with prior role
`"Backend Engineer"` it returns `"Backend Engineer"`; `sanitizeTitleText`
instead caps the action-verb candidate at 6 words of the input. -/
theorem c5_role_falls_back_to_prev :
    (∀ next prev, actionVerbTest (roleCandidate next) = true →
      cleanedPrevRole prev ≠ "" →
      sanitizeRoleText next prev = sanitizeOneLine (cleanedPrevRole prev))
    ∧ sanitizeRoleText "Developed and led a team of 5 engineers to improve throughput"
        "Backend Engineer" = "Backend Engineer"
    ∧ sanitizeTitleText "Developed and led a team of 5 engineers to improve throughput"
        "Backend Engineer" = "Developed and led a team of" := by
  refine ⟨?_, by decide, by decide⟩
  intro next prev h1 h2
  unfold sanitizeRoleText
  rw [if_pos h1]
  show sanitizeOneLine (if cleanedPrevRole prev = "" then _ else cleanedPrevRole prev) = _
  rw [if_neg h2]

/-- Witness for claim C5's theorem at the regression input: the action-verb
hypothesis and the non-empty-previous hypothesis hold there, and the result
is the sanitized previous first clause. -/
theorem c5_witness :
    sanitizeRoleText "Developed and led a team of 5 engineers to improve throughput"
        "Backend Engineer"
      = sanitizeOneLine (cleanedPrevRole "Backend Engineer") :=
  c5_role_falls_back_to_prev.1
    "Developed and led a team of 5 engineers to improve throughput"
    "Backend Engineer" (by decide) (by decide)

/-- Claim C8 (corrected): every skill-ingestion path deduplicates only
exact strings — `tokenizeSkills "js, JS"` keeps both `"js"` and `"JS"`,
which are equal under case-insensitive comparison. -/
theorem c8_counterexample :
    tokenizeSkills "js, JS" = ["js", "JS"]
    ∧ strLower "js" = strLower "JS"
    ∧ "js" ≠ "JS" := by
  decide

/-- Claim C8 (corrected, amended): skills produced by each ingestion path
contain no two entries equal as exact strings (after trimming) — the
local tokenizer and the Set-deduplication step shared by the on-device and
remote-writer normalization paths — but case-insensitive,
whitespace-normalized deduplication is not enforced. -/
theorem c8_exact_dedup_only :
    ∀ (text : String) (aiSkills : List String),
      (tokenizeSkills text).Nodup ∧ (dedupTrimmedNonempty aiSkills).Nodup := by
  intro text aiSkills
  constructor
  · unfold tokenizeSkills
    by_cases h : text = ""
    · rw [if_pos h]; exact List.nodup_nil
    · rw [if_neg h]; exact dedupFirstAux_nodup _ []
  · exact dedupFirstAux_nodup _ []

theorem tierCommit_some (orig raw : String) (out : List String)
    (h : tierCommit orig raw = some out) :
    out = sanitizeBulletList (splitLines (if raw = "" then orig else raw)) ∧ out ≠ [] := by
  simp only [tierCommit] at h
  by_cases hx : sanitizeBulletList (splitLines (if raw = "" then orig else raw)) = []
  · rw [if_pos hx] at h; cases h
  · rw [if_neg hx] at h
    injection h with h1
    exact ⟨h1.symm, h1 ▸ hx⟩

/-- Claim C2 (corrected): with the device tier reachable
(`ensureRewriter` resolves), a device result `"-"` whose sanitized bullet
list is empty, and a cloud tier that would return the acceptable
`"Good bullet here"`, the handler leaves the bullets unchanged, attempts no
further tier, and surfaces no failure message — contradicting the claimed
silent advance to the next tier and the claimed single failure message on
exhaustion. -/
theorem c2_counterexample :
    rewriteAction ["Did stuff"] ⟨true, some "-", some "Good bullet here", none⟩
      = (["Did stuff"], false)
    ∧ sanitizeBulletList (splitLines "-") = []
    ∧ sanitizeBulletList (splitLines "Good bullet here") = ["Good bullet here"] := by
  decide

/-- Claim C2 (corrected, amended): the next tier is attempted only when the
previous tier's invocation throws; a tier that succeeds with an empty
sanitized result ends the action silently with the bullets unchanged and no
later tier attempted; the single failure alert fires exactly when all three
tiers throw, and then the bullets are unchanged; in every case the committed
value is either the prior bullets or the full sanitized split of one tier's
text (never a partial write). -/
theorem c2_rewrite_fallback :
    ∀ (bullets : List String) (env : RewriteEnv),
      (rewriteAction bullets env = (bullets, true) ↔
        env.ensureOk = false ∧ env.cloudResult = none ∧ env.writerResult = none)
      ∧ ((rewriteAction bullets env).1 = bullets
          ∨ ∃ t, (rewriteAction bullets env).1 = sanitizeBulletList (splitLines t)
              ∧ sanitizeBulletList (splitLines t) ≠ [])
      ∧ (env.ensureOk = true →
          tierCommit (String.intercalate "\n" bullets)
            ((env.deviceResult).getD (String.intercalate "\n" bullets)) = none →
          rewriteAction bullets env = (bullets, false)) := by
  intro bullets env
  obtain ⟨eo, dr, cr, wr⟩ := env
  cases eo with
  | true =>
    simp only [rewriteAction, if_true]
    cases htc : tierCommit (String.intercalate "\n" bullets)
        (dr.getD (String.intercalate "\n" bullets)) with
    | none =>
      refine ⟨?_, Or.inl rfl, fun _ _ => rfl⟩
      constructor
      · intro h; injection h with _ hb; cases hb
      · rintro ⟨h, -⟩; cases h
    | some out =>
      obtain ⟨ho, hne⟩ := tierCommit_some _ _ _ htc
      refine ⟨?_, Or.inr ⟨_, ho, by rw [← ho]; exact hne⟩, fun _ hcon => ?_⟩
      · constructor
        · intro h; injection h with _ hb; cases hb
        · rintro ⟨h, -⟩; cases h
      · cases hcon
  | false =>
    cases cr with
    | some c =>
      simp only [rewriteAction, if_false]
      cases htc : tierCommit (String.intercalate "\n" bullets) c with
      | none =>
        refine ⟨?_, Or.inl rfl, fun hcon _ => by cases hcon⟩
        constructor
        · intro h; injection h with _ hb; cases hb
        · rintro ⟨-, h, -⟩; cases h
      | some out =>
        obtain ⟨ho, hne⟩ := tierCommit_some _ _ _ htc
        refine ⟨?_, Or.inr ⟨_, ho, by rw [← ho]; exact hne⟩, fun hcon _ => by cases hcon⟩
        constructor
        · intro h; injection h with _ hb; cases hb
        · rintro ⟨-, h, -⟩; cases h
    | none =>
      cases wr with
      | some w =>
        simp only [rewriteAction, if_false]
        cases htc : tierCommit (String.intercalate "\n" bullets) w with
        | none =>
          refine ⟨?_, Or.inl rfl, fun hcon _ => by cases hcon⟩
          constructor
          · intro h; injection h with _ hb; cases hb
          · rintro ⟨-, -, h⟩; cases h
        | some out =>
          obtain ⟨ho, hne⟩ := tierCommit_some _ _ _ htc
          refine ⟨?_, Or.inr ⟨_, ho, by rw [← ho]; exact hne⟩, fun hcon _ => by cases hcon⟩
          constructor
          · intro h; injection h with _ hb; cases hb
          · rintro ⟨-, -, h⟩; cases h
      | none =>
        simp only [rewriteAction, if_false]
        exact ⟨by simp, Or.inl rfl, fun hcon _ => by cases hcon⟩

/-- Witness for claim C2's theorem: at the concrete environment where the
device rewriter resolves but produces only a bare dash, the silent-no-op
clause applies and the bullets are unchanged with no alert. -/
theorem c2_witness :
    rewriteAction ["Did stuff"] ⟨true, some "-", none, none⟩ = (["Did stuff"], false) :=
  (c2_rewrite_fallback ["Did stuff"] ⟨true, some "-", none, none⟩).2.2 rfl (by decide)

theorem ctAux_false_eq_one (w : List Char) (hne : w ≠ [])
    (hns : ∀ c ∈ w, isWsChar c = false) : ctAux false w = 1 := by
  cases w with
  | nil => exact absurd rfl hne
  | cons c cs =>
    have hc : isWsChar c = false := hns c (List.mem_cons_self c cs)
    have := (ctAux_le_one_of_no_ws cs (fun d hd => hns d (List.mem_cons_of_mem c hd))).2
    simp only [ctAux, hc, Bool.false_eq_true, if_false, if_true]
    omega

theorem ctAux_joinSp_replicate (w : List Char) (hne : w ≠ [])
    (hns : ∀ c ∈ w, isWsChar c = false) :
    ∀ n, 1 ≤ n → ctAux false (joinSp (List.replicate n w)) = n := by
  intro n
  induction n with
  | zero => intro h; omega
  | succ m ih =>
    intro _
    cases m with
    | zero =>
      show ctAux false (joinSp [w]) = 1
      exact ctAux_false_eq_one w hne hns
    | succ k =>
      have hrep : List.replicate (k + 1 + 1) w = w :: List.replicate (k + 1) w := rfl
      rw [hrep]
      have hrep2 : ∃ q qs, List.replicate (k + 1) w = q :: qs := ⟨w, List.replicate k w, rfl⟩
      obtain ⟨q, qs, hq⟩ := hrep2
      have hjoin : joinSp (w :: List.replicate (k + 1) w)
          = w ++ ' ' :: joinSp (List.replicate (k + 1) w) := by
        rw [hq]
        rfl
      rw [hjoin, ctAux_append]
      have hsp : isWsChar ' ' = true := by decide
      have hskip : ∀ b, ctAux b (' ' :: joinSp (List.replicate (k + 1) w))
          = ctAux false (joinSp (List.replicate (k + 1) w)) := by
        intro b
        simp [ctAux, hsp]
      rw [hskip]
      rw [ctAux_false_eq_one w hne hns, ih (by omega)]
      omega

theorem wordCount_cv1100 : wordCountOf cv1100 = 1100 := by
  have h1 : (textContentFromCV cv1100).data
      = ' ' :: ' ' :: joinSp (List.replicate 1100 "word".data) := rfl
  unfold wordCountOf countTokensStr countTokens
  rw [h1]
  have hsp : isWsChar ' ' = true := by decide
  have hstep : ∀ l, ctAux false (' ' :: l) = ctAux false l := by
    intro l
    simp [ctAux, hsp]
  rw [hstep, hstep]
  exact ctAux_joinSp_replicate "word".data (by decide) (by decide) 1100 (by omega)

/-- Membership of a page-limit warning in `lintCV` output forces the
estimate to exceed the effective limit: no other push site produces a
`pageLimit` warning. -/
theorem pageLimit_mem_lintCV (cv : CVDoc) (pack : CountryPack)
    (preview : Option PreviewFacts) (e l : Nat) (c : String)
    (h : Warning.pageLimit e l c ∈ lintCV cv pack preview) :
    estPages (wordCountOf cv) > effPageLimit pack := by
  by_contra hc
  simp only [lintCV] at h
  rw [if_neg hc] at h
  simp only [List.nil_append, List.mem_append] at h
  rcases h with (h | h) | h
  · obtain ⟨x, -, hx⟩ := List.mem_map.mp h
    exact Warning.noConfusion hx
  · by_cases hd : hasDateTokenL (serializeCV cv).data = true
    · rw [if_pos hd] at h; simp at h
    · rw [if_neg hd] at h
      simp only [List.mem_singleton] at h
      exact Warning.noConfusion h
  · cases preview with
    | none => simp at h
    | some p =>
      simp only [List.mem_append] at h
      rcases h with (h | h) | h
      · by_cases ht : p.hasTable = true
        · rw [if_pos ht] at h
          simp only [List.mem_singleton] at h
          exact Warning.noConfusion h
        · rw [if_neg ht] at h; simp at h
      · by_cases ht : p.hasImg = true
        · rw [if_pos ht] at h
          simp only [List.mem_singleton] at h
          exact Warning.noConfusion h
        · rw [if_neg ht] at h; simp at h
      · by_cases ht : p.elemCount > 2000
        · rw [if_pos ht] at h
          simp only [List.mem_singleton] at h
          exact Warning.noConfusion h
        · rw [if_neg ht] at h; simp at h

/-- Claim C3 (corrected, amended): the estimated page count is
`Math.round(wordCount / 500)` — for natural counts `⌊(wc + 250) / 500⌋` —
clamped to a minimum of 1, not `ceil(wc / 500)`; the page-limit warning is
emitted exactly when this estimate exceeds the pack's `page_limit` (with 0
treated as 2); a document with word count 1100 yields estimated pages = 2
(not 3), which still warns against `page_limit` 1. -/
theorem c3_page_estimate :
    (∀ cv pack preview,
      Warning.pageLimit (estPages (wordCountOf cv)) pack.page_limit cv.meta.countryPack
          ∈ lintCV cv pack preview
        ↔ estPages (wordCountOf cv) > effPageLimit pack)
    ∧ wordCountOf cv1100 = 1100
    ∧ estPages 1100 = 2
    ∧ Warning.pageLimit 2 1 "US" ∈ lintCV cv1100 packLimit1 none := by
  have hmain : ∀ cv pack preview,
      Warning.pageLimit (estPages (wordCountOf cv)) pack.page_limit cv.meta.countryPack
          ∈ lintCV cv pack preview
        ↔ estPages (wordCountOf cv) > effPageLimit pack := by
    intro cv pack preview
    constructor
    · exact pageLimit_mem_lintCV cv pack preview _ _ _
    · intro hc
      simp only [lintCV]
      rw [if_pos hc]
      exact List.mem_append_left _ (List.mem_cons_self _ _)
  refine ⟨hmain, wordCount_cv1100, by decide, ?_⟩
  have h2 := (hmain cv1100 packLimit1 none).mpr (by rw [wordCount_cv1100]; decide)
  have he : Warning.pageLimit (estPages (wordCountOf cv1100)) packLimit1.page_limit
      cv1100.meta.countryPack = Warning.pageLimit 2 1 "US" := by
    rw [wordCount_cv1100]
    decide
  rw [← he]
  exact h2

/-- Claim C3 (corrected): the counterexample to the claim as stated — the
estimate for 1100 words is 2, not the claimed `ceil(1100/500) = 3`. -/
theorem c3_counterexample : estPages 1100 = 2 ∧ ¬ estPages 1100 = 3 := by
  decide

theorem collectHeadings_subset (cv : CVDoc) :
    ((collectHeadings cv).all fun h => STANDARD_HEADINGS.contains h) = true := by
  unfold collectHeadings
  simp only [List.all_append, Bool.and_eq_true]
  and_intros <;> (split <;> decide)

/-- Claim C10 (confirmed): `collectHeadings` only ever emits headings from
the fixed `STANDARD_HEADINGS` vocabulary, so the
non-standard-section-heading rule of `lintCV` can never fire. -/
theorem c10_no_nonstandard_heading_warning :
    ∀ cv pack preview,
      ((lintCV cv pack preview).all fun w => !w.isNonStandardHeading) = true
      ∧ ((collectHeadings cv).all fun h => STANDARD_HEADINGS.contains h) = true := by
  intro cv pack preview
  refine ⟨?_, collectHeadings_subset cv⟩
  have hfil : (collectHeadings cv).filter (fun h => !STANDARD_HEADINGS.contains h) = [] := by
    rw [List.filter_eq_nil_iff]
    intro a ha
    have h := List.all_eq_true.mp (collectHeadings_subset cv) a ha
    rw [h]
    decide
  rw [List.all_eq_true]
  intro w hw
  simp only [lintCV, hfil, List.map_nil, List.append_nil, List.nil_append,
    List.mem_append] at hw
  have hshape : w.isNonStandardHeading = false := by
    rcases hw with (hw | hw) | hw
    · by_cases hc : estPages (wordCountOf cv) > effPageLimit pack
      · rw [if_pos hc] at hw
        simp only [List.mem_singleton] at hw
        subst hw
        rfl
      · rw [if_neg hc] at hw
        simp at hw
    · by_cases hd : hasDateTokenL (serializeCV cv).data = true
      · rw [if_pos hd] at hw
        simp at hw
      · rw [if_neg hd] at hw
        simp only [List.mem_singleton] at hw
        subst hw
        rfl
    · cases preview with
      | none => simp at hw
      | some p =>
        simp only [List.mem_append] at hw
        rcases hw with (hw | hw) | hw
        · by_cases ht : p.hasTable = true
          · rw [if_pos ht] at hw
            simp only [List.mem_singleton] at hw
            subst hw
            rfl
          · rw [if_neg ht] at hw
            simp at hw
        · by_cases ht : p.hasImg = true
          · rw [if_pos ht] at hw
            simp only [List.mem_singleton] at hw
            subst hw
            rfl
          · rw [if_neg ht] at hw
            simp at hw
        · by_cases ht : p.elemCount > 2000
          · rw [if_pos ht] at hw
            simp only [List.mem_singleton] at hw
            subst hw
            rfl
          · rw [if_neg ht] at hw
            simp at hw
  rw [hshape]
  rfl

/-- Claim C7 (corrected): the sanitization step of `groupSkillsAI`
deduplicates only exact strings — a parsed object whose `Programming` list
holds `"javascript"` and `"JavaScript"` keeps both entries, which are equal
under case-insensitive comparison, so case-insensitively equal inputs can
contribute two grouped entries on the AI path. -/
theorem c7_counterexample :
    sanitizeGroupedAI [("Programming", ["javascript", "JavaScript"])]
      = [("Programming", ["JavaScript", "javascript"])]
    ∧ ¬ (["JavaScript", "javascript"].map strLower).Nodup := by
  decide

/-- Claim C7 (corrected, amended): `groupSkillsLocal` emits only categories
from the fixed enumeration, every emitted list is non-empty and
duplicate-free, skills matching no category land in `Other`, and inputs
equal after case-insensitive whitespace normalization contribute one entry
(the spec's four-skill example yields exactly two grouped entries); the
sanitization step of `groupSkillsAI` guarantees only the key enumeration,
non-emptiness and exact-string deduplication — case-insensitive
deduplication and `Other`-routing are not enforced on the AI path. -/
theorem c7_skill_grouping :
    (∀ raw p, p ∈ groupSkillsLocal raw →
      ORDER.contains p.1 = true ∧ p.2 ≠ [] ∧ p.2.Nodup)
    ∧ (∀ raw r, r ∈ raw → ¬ normSkill r = "" →
        detectLocalCategory (normSkill r) = "Other" →
        ∃ r2 vals, r2 ∈ raw ∧ normSkill r2 = normSkill r
          ∧ ("Other", vals) ∈ groupSkillsLocal raw ∧ prettySkill r2 ∈ vals)
    ∧ groupSkillsLocal ["JavaScript", "javascript", "Postgres", "postgres"]
        = [("Programming", ["JavaScript"]), ("Databases", ["PostgreSQL"])]
    ∧ (∀ obj p, p ∈ sanitizeGroupedAI obj →
        ORDER.contains p.1 = true ∧ p.2 ≠ [] ∧ p.2.Nodup) := by
  refine ⟨?_, ?_, by decide, ?_⟩
  · intro raw p hp
    simp only [groupSkillsLocal] at hp
    obtain ⟨cat, hcat, hf⟩ := List.mem_filterMap.mp hp
    by_cases hv : ((firstPerNormAux raw []).filter
        (fun r => detectLocalCategory (normSkill r) == cat)).map prettySkill = []
    · rw [if_pos (by rw [hv]; rfl)] at hf
      cases hf
    · rw [if_neg (by simpa [List.isEmpty_iff] using hv)] at hf
      injection hf with hf
      rw [← hf]
      refine ⟨List.elem_iff.mpr hcat, ?_, ?_⟩
      · exact sortStrings_ne_nil _ (dedupFirstStr_ne_nil _ hv)
      · exact nodup_sortStrings _ (dedupFirstAux_nodup _ [])
  · intro raw r hr hne hother
    obtain ⟨r2, hr2mem, hr2norm⟩ := firstPerNormAux_covers raw [] r hr hne (by simp)
    have hdet : (detectLocalCategory (normSkill r2) == "Other") = true := by
      rw [hr2norm, hother]
      rfl
    have hflt : r2 ∈ (firstPerNormAux raw []).filter
        (fun x => detectLocalCategory (normSkill x) == "Other") :=
      List.mem_filter.mpr ⟨hr2mem, hdet⟩
    have hv : prettySkill r2 ∈ ((firstPerNormAux raw []).filter
        (fun x => detectLocalCategory (normSkill x) == "Other")).map prettySkill :=
      List.mem_map_of_mem _ hflt
    have hvne : ((firstPerNormAux raw []).filter
        (fun x => detectLocalCategory (normSkill x) == "Other")).map prettySkill ≠ [] :=
      List.ne_nil_of_mem hv
    refine ⟨r2, sortStrings (dedupFirstStr (((firstPerNormAux raw []).filter
        (fun x => detectLocalCategory (normSkill x) == "Other")).map prettySkill)),
      firstPerNormAux_subset raw [] r2 hr2mem, hr2norm, ?_, ?_⟩
    · simp only [groupSkillsLocal]
      apply List.mem_filterMap.mpr
      refine ⟨"Other", by decide, ?_⟩
      rw [if_neg (by simpa [List.isEmpty_iff] using hvne)]
    · rw [mem_sortStrings]
      exact dedupFirstAux_mem_intro _ [] _ hv (by simp)
  · intro obj p hp
    simp only [sanitizeGroupedAI] at hp
    obtain ⟨cat, hcat, hf⟩ := List.mem_filterMap.mp hp
    by_cases hv : ((((obj.find? (fun q => q.1 == cat)).map (fun q => q.2)).getD []).filter
        (fun s => !(s = ""))) = []
    · rw [if_pos (by rw [hv]; rfl)] at hf
      cases hf
    · rw [if_neg (by simpa [List.isEmpty_iff] using hv)] at hf
      injection hf with hf
      rw [← hf]
      refine ⟨List.elem_iff.mpr hcat, ?_, ?_⟩
      · exact sortStrings_ne_nil _ (dedupFirstStr_ne_nil _ hv)
      · exact nodup_sortStrings _ (dedupFirstAux_nodup _ [])

/-- Witness for claim C7's theorem: on the concrete four-skill input, the
first grouped entry is in the enumeration, non-empty and duplicate-free;
the unknown-skill clause applies to a concrete unmatched skill; and the AI
sanitization clause applies to a concrete parsed object. -/
theorem c7_witness :
    (ORDER.contains "Programming" = true ∧ (["JavaScript"] : List String) ≠ []
      ∧ (["JavaScript"] : List String).Nodup)
    ∧ (∃ r2 vals, r2 ∈ ["zzz unknown skill"] ∧ normSkill r2 = normSkill "zzz unknown skill"
        ∧ ("Other", vals) ∈ groupSkillsLocal ["zzz unknown skill"] ∧ prettySkill r2 ∈ vals) :=
  ⟨(c7_skill_grouping.1 ["JavaScript", "javascript", "Postgres", "postgres"]
      ("Programming", ["JavaScript"]) (by decide)),
   (c7_skill_grouping.2.1 ["zzz unknown skill"] "zzz unknown skill" (by decide) (by decide)
      (by decide))⟩

/-- Claim C9 (confirmed): after resolution the pack's sections contain each
of Projects, Certifications, Publications and Patents case-insensitively,
whatever the remote spec returned; a remote spec without `section_order`
resolves to the built-in default list with the missing extras appended (for
DE the four English names are appended after the German defaults); and a
fetch failure leaves the cached packs unchanged. -/
theorem c9_country_pack_resolution :
    (∀ country spec packs,
      (EXTRA_SECTIONS.all fun s =>
        containsCI ((updateCountryPackFromGemini country (some spec) packs country).sections) s)
        = true)
    ∧ (∀ country packs (pl : Option Nat) (pa : Bool) (df sp : Option String)
        (nts : Option (List String)),
        ((updateCountryPackFromGemini country (some ⟨none, pl, pa, df, sp, nts⟩) packs)
            country).sections = ensureExtras (defaultSections country))
    ∧ (∀ country packs, updateCountryPackFromGemini country none packs = packs)
    ∧ (∀ packs, ((updateCountryPackFromGemini "DE"
          (some ⟨none, none, false, none, none, none⟩) packs) "DE").sections
        = ["Profil", "Berufserfahrung", "Ausbildung", "Projekte", "Fähigkeiten",
           "Zertifikate", "Publikationen", "Patente", "Projects", "Certifications",
           "Publications", "Patents"]) := by
  refine ⟨?_, ?_, fun country packs => rfl, ?_⟩
  · intro country spec packs
    rw [List.all_eq_true]
    intro s hs
    simp only [updateCountryPackFromGemini, beq_self_eq_true, if_true]
    exact ensureExtras_has_extras _ s hs
  · intro country packs pl pa df sp nts
    simp only [updateCountryPackFromGemini, beq_self_eq_true, if_true]
  · intro packs
    simp only [updateCountryPackFromGemini, beq_self_eq_true, if_true]
    decide

end CVF
